import Mathlib

/-!
A shallow embedding of `src/mem.c` (ashtonjamesd/xalloc).

The C file implements three allocation strategies over one shared set of
file-scoped globals: `dbgHead` (front of an intrusive doubly linked list of
`DebugHeader` records), `debugBytesAlive` and `debugAllocCount`.

Modelling conventions:
- A pointer is `Option Addr` (`none` models `NULL`); addresses are `Nat`.
- Each tracked allocation is identified by the address of its `DebugHeader`.
  The C code hands out `(void *)(dh + 1)` and recovers the header via
  `((DebugHeader *)ptr) - 1`; this fixed offset is abstracted away, so the
  payload pointer and its header address are identified.
- The heap is an association list from addresses to the `DebugHeader`-typed
  contents stored there.  Reads through invalid pointers are modelled by
  whatever entry (if any) the association list holds at that address.
- `size_t` quantities are `Nat`; `debugBytesAlive -= h->size` becomes Nat
  truncated subtraction, which agrees with the C value in every state where
  the subtraction does not underflow (all invariant states below).
- `malloc`/`realloc` choose the returned address; the model takes that
  address as an explicit parameter.  `checkPtr` terminates the process when
  the underlying call fails, so the stateful debug operations are modelled
  on the successful executions only; for the thin `xalloc`/`xrealloc`/
  `BasicAllocator` wrappers the possible termination and the issued C
  library calls are modelled explicitly (`xallocT` and friends).
-/

namespace Xalloc

/-- Machine address of a `DebugHeader`. -/
abbrev Addr := Nat

/-- The struct `DebugHeader` of `src/mem.c`: requested size, allocation
sequence number, and the intrusive doubly linked list links (`NULL` is
`none`). -/
structure DebugHeader where
  size : Nat
  allocNumber : Nat
  next : Option Addr
  prev : Option Addr
deriving DecidableEq, Repr

/-- Memory contents readable as a `DebugHeader`, keyed by header address. -/
abbrev Heap := List (Addr × DebugHeader)

/-- Read the `DebugHeader` stored at address `a` (first entry wins). -/
def lookupH : Heap → Addr → Option DebugHeader
  | [], _ => none
  | (b, r) :: t, a => if a = b then some r else lookupH t a

/-- Overwrite fields of the header stored at address `a`. -/
def updateH : Heap → Addr → (DebugHeader → DebugHeader) → Heap
  | [], _, _ => []
  | (b, r) :: t, a, f => if a = b then (b, f r) :: t else (b, r) :: updateH t a f

/-- Deallocate the block at address `a`. -/
def eraseH : Heap → Addr → Heap
  | [], _ => []
  | (b, r) :: t, a => if b = a then eraseH t a else (b, r) :: eraseH t a

/-- Write through a possibly null pointer, the C pattern
`if (x) x->field = v;` (no-op when the pointer is `NULL`). -/
def updOpt (h : Heap) (x : Option Addr) (f : DebugHeader → DebugHeader) : Heap :=
  match x with
  | none => h
  | some b => updateH h b f

/-- The addresses currently allocated in the heap. -/
def heapKeys (h : Heap) : List Addr := h.map Prod.fst

/-- The file-scoped globals of `src/mem.c` together with the header-typed
heap contents: `dbgHead`, `debugBytesAlive`, `debugAllocCount`. -/
structure MemState where
  heap : Heap
  dbgHead : Option Addr
  debugBytesAlive : Nat
  debugAllocCount : Nat
deriving DecidableEq, Repr

/-- The state at program start: empty list, zero counters. -/
def initialState : MemState :=
  { heap := [], dbgHead := none, debugBytesAlive := 0, debugAllocCount := 0 }

/-- `debugAlloc` (src/mem.c:71-90) on the successful execution in which
`malloc` returns the fresh block `a`.  Returns the new state and the
returned pointer.  Mirrors the source order: bump `debugAllocCount`, fill
the new header (`next := dbgHead`, `prev := NULL`), re-point the old head's
`prev`, move `dbgHead`, add `sz` to `debugBytesAlive`. -/
def debugAlloc (s : MemState) (sz : Nat) (a : Addr) : MemState × Option Addr :=
  if sz = 0 then (s, none)
  else
    let dh : DebugHeader :=
      { size := sz, allocNumber := s.debugAllocCount + 1,
        next := s.dbgHead, prev := none }
    let h1 : Heap := (a, dh) :: s.heap
    let h2 : Heap := updOpt h1 s.dbgHead (fun r => { r with prev := some a })
    ({ heap := h2, dbgHead := some a,
       debugBytesAlive := s.debugBytesAlive + sz,
       debugAllocCount := s.debugAllocCount + 1 }, some a)

/-- `debugFree` (src/mem.c:123-135): recover the header, patch
`prev->next` / `next->prev` around it (moving `dbgHead` when it was first),
subtract its size, release the block.  A `NULL` argument returns at once; a
pointer whose header address is unmapped is undefined behaviour in C and is
modelled as a no-op, the theorems below always supply mapped pointers. -/
def debugFree (s : MemState) (p : Option Addr) : MemState :=
  match p with
  | none => s
  | some a =>
    match lookupH s.heap a with
    | none => s
    | some r =>
      let h1 := updOpt s.heap r.prev (fun x => { x with next := r.next })
      let newHead : Option Addr :=
        match r.prev with
        | none => r.next
        | some _ => s.dbgHead
      let h2 := updOpt h1 r.next (fun x => { x with prev := r.prev })
      { heap := eraseH h2 a, dbgHead := newHead,
        debugBytesAlive := s.debugBytesAlive - r.size,
        debugAllocCount := s.debugAllocCount }

/-- `xfree` (src/mem.c:57-69).  Its body is identical, line for line, to
`debugFree`: it interprets the 32 bytes before the argument as a
`DebugHeader`, unlinks that record from the debug list and calls `free` on
the header address — even though `SafeAllocator`'s companion `xalloc`
returns raw `malloc` blocks that carry no header. -/
def xfree (s : MemState) (p : Option Addr) : MemState :=
  match p with
  | none => s
  | some a =>
    match lookupH s.heap a with
    | none => s
    | some r =>
      let h1 := updOpt s.heap r.prev (fun x => { x with next := r.next })
      let newHead : Option Addr :=
        match r.prev with
        | none => r.next
        | some _ => s.dbgHead
      let h2 := updOpt h1 r.next (fun x => { x with prev := r.prev })
      { heap := eraseH h2 a, dbgHead := newHead,
        debugBytesAlive := s.debugBytesAlive - r.size,
        debugAllocCount := s.debugAllocCount }

/-- `debugRealloc` (src/mem.c:92-120) on the successful execution in which
`realloc` returns the block `a2` (`a2 = a` is growth in place, otherwise
`a2` is a fresh block holding a copy of the old header).  `NULL` delegates
to `debugAlloc`, size 0 delegates to `debugFree`; otherwise remember
`oldSize`, move the block, repair the neighbours' links when the address
changed, store the new size, and adjust `debugBytesAlive` by the
difference. -/
def debugRealloc (s : MemState) (p : Option Addr) (sz : Nat) (a2 : Addr) :
    MemState × Option Addr :=
  match p with
  | none => debugAlloc s sz a2
  | some a =>
    if sz = 0 then (debugFree s (some a), none)
    else
      match lookupH s.heap a with
      | none => (s, none)
      | some old =>
        if a2 = a then
          ({ heap := updateH s.heap a (fun r => { r with size := sz }),
             dbgHead := s.dbgHead,
             debugBytesAlive := s.debugBytesAlive - old.size + sz,
             debugAllocCount := s.debugAllocCount }, some a)
        else
          let h1 : Heap := (a2, old) :: eraseH s.heap a
          let h2 := updOpt h1 old.prev (fun r => { r with next := some a2 })
          let newHead : Option Addr :=
            match old.prev with
            | none => some a2
            | some _ => s.dbgHead
          let h3 := updOpt h2 old.next (fun r => { r with prev := some a2 })
          let h4 := updateH h3 a2 (fun r => { r with size := sz })
          ({ heap := h4, dbgHead := newHead,
             debugBytesAlive := s.debugBytesAlive - old.size + sz,
             debugAllocCount := s.debugAllocCount }, some a2)

/-- One call into the C library allocator, with the result it returned. -/
inductive SysCall where
  | mallocCall : Nat → Option Addr → SysCall
  | freeCall : Addr → SysCall
  | reallocCall : Option Addr → Nat → Option Addr → SysCall
deriving DecidableEq, Repr

/-- `xalloc` (src/mem.c:41-48).  `res` is the value the C library `malloc`
returns if called.  Output: the list of C library calls issued, and `none`
when `checkPtr` terminated the process, otherwise `some` of the returned
pointer. -/
def xallocT (res : Option Addr) (sz : Nat) :
    List SysCall × Option (Option Addr) :=
  if sz = 0 then ([], some none)
  else ([SysCall.mallocCall sz res],
        match res with
        | none => none
        | some a => some (some a))

/-- `xrealloc` (src/mem.c:50-55): unconditionally calls the C library
`realloc` and dies on a null result.  There is no special case for a null
pointer or for size 0. -/
def xreallocT (res : Option Addr) (p : Option Addr) (sz : Nat) :
    List SysCall × Option (Option Addr) :=
  ([SysCall.reallocCall p sz res],
   match res with
   | none => none
   | some a => some (some a))

/-- `BasicAllocator.alloc = malloc` (src/mem.c:18): the call is the C
library call itself, its result is returned unchanged (a null result is
surfaced to the caller).  The C standard lets `malloc 0` return either
`NULL` or a unique non-null pointer, so `res` is unconstrained. -/
def basicAllocT (res : Option Addr) (sz : Nat) :
    List SysCall × Option (Option Addr) :=
  ([SysCall.mallocCall sz res], some res)

/-- `BasicAllocator.realloc = realloc` (src/mem.c:20). -/
def basicReallocT (res : Option Addr) (p : Option Addr) (sz : Nat) :
    List SysCall × Option (Option Addr) :=
  ([SysCall.reallocCall p sz res], some res)

/-- The per-record line of `debugReportLeaks` (src/mem.c:148-150).  The C
format string is `"Leak: allocation %zu leaked %zu bytes \n"` — note the
space between `bytes` and the newline. -/
def leakLine (r : DebugHeader) : String :=
  "Leak: allocation " ++ toString r.allocNumber ++ " leaked " ++
    toString r.size ++ " bytes "

/-- The `while (h) ... h = h->next` traversal of `debugReportLeaks`,
fuelled so it is total; fuel `s.heap.length` suffices in every invariant
state. -/
def leakLines (h : Heap) : Option Addr → Nat → List String
  | _, 0 => []
  | none, _ => []
  | some a, fuel + 1 =>
    match lookupH h a with
    | none => []
    | some r => leakLine r :: leakLines h r.next fuel

/-- `debugReportLeaks` (src/mem.c:137-155), as the list of lines written to
`stderr` (each line without its terminating newline).  The function only
reads the state. -/
def debugReportLeaks (s : MemState) : List String :=
  match s.dbgHead with
  | none => ["No memory leaks detected."]
  | some _ =>
    "MEMORY LEAKS DETECTED:" ::
      (leakLines s.heap s.dbgHead s.heap.length ++
        ["Total leaked: " ++ toString s.debugBytesAlive ++ " bytes"])

/-- `xstrdup` (src/mem.c:157-169) instantiated with the `DebugAllocator`.
A C string is a list of characters (without the terminator), `strlen`
is its length and the allocation requests `len + 1` bytes.  The copy loop
writes payload bytes only, which are outside the tracking state. -/
def xstrdupDebug (s : MemState) (str : Option (List Char)) (a : Addr) :
    MemState × Option Addr :=
  match str with
  | none => (s, none)
  | some cs => debugAlloc s (cs.length + 1) a

/-- One `DebugTrackingStrategy` operation, with the address the underlying
allocator hands back on success supplied as part of the operation. -/
inductive Op where
  | alloc : Nat → Addr → Op
  | free : Option Addr → Op
  | realloc : Option Addr → Nat → Addr → Op
deriving DecidableEq, Repr

/-- Effect of one operation on the tracking state. -/
def step (s : MemState) : Op → MemState
  | Op.alloc sz a => (debugAlloc s sz a).1
  | Op.free p => debugFree s p
  | Op.realloc p sz a2 => (debugRealloc s p sz a2).1

/-- Run a sequence of operations from `s`. -/
def run (s : MemState) (ops : List Op) : MemState := ops.foldl step s

/-- Side conditions making one operation a defined C execution: a freed or
resized pointer is `NULL` or currently tracked, and a block address handed
back by the underlying allocator is fresh (or, for `realloc`, the original
address). -/
def opOk (s : MemState) : Op → Bool
  | Op.alloc sz a => sz == 0 || (lookupH s.heap a).isNone
  | Op.free p =>
    match p with
    | none => true
    | some a => (lookupH s.heap a).isSome
  | Op.realloc p sz a2 =>
    match p with
    | none => sz == 0 || (lookupH s.heap a2).isNone
    | some a =>
      (lookupH s.heap a).isSome &&
        (sz == 0 || (a2 == a || (lookupH s.heap a2).isNone))

/-- Every operation of the sequence is defined at the state it runs in. -/
def runValidB : MemState → List Op → Bool
  | _, [] => true
  | s, op :: ops => opOk s op && runValidB (step s op) ops

/-- Sequence numbers assigned along a run: `debugAlloc` stores
`debugAllocCount` (after its increment) into the new record, so whenever an
operation raises the counter the number it assigned is the new counter
value. -/
def assignedSeqs : MemState → List Op → List Nat
  | _, [] => []
  | s, op :: ops =>
    (if s.debugAllocCount < (step s op).debugAllocCount
     then [(step s op).debugAllocCount] else []) ++
      assignedSeqs (step s op) ops

/-- `chainB h pv cur addrs`: starting at `cur` whose expected back link is
`pv`, following `next` pointers visits exactly the addresses `addrs` and
ends at `NULL`, each visited record's `prev` equal to the address it was
reached from. -/
def chainB (h : Heap) : Option Addr → Option Addr → List Addr → Bool
  | _, cur, [] => cur == none
  | pv, cur, a :: rest =>
    cur == some a &&
      (match lookupH h a with
       | none => false
       | some r => r.prev == pv && chainB h (some a) r.next rest)

/-- `segB h pv cur addrs pv1 cur1`: walking `addrs` from cursor `cur`
(expected back link `pv`) is well linked and leaves the walk at cursor
`cur1` with back link `pv1`. -/
def segB (h : Heap) : Option Addr → Option Addr → List Addr → Option Addr → Option Addr → Bool
  | pv, cur, [], pv1, cur1 => pv == pv1 && cur == cur1
  | pv, cur, a :: rest, pv1, cur1 =>
    cur == some a &&
      (match lookupH h a with
       | none => false
       | some r => r.prev == pv && segB h (some a) r.next rest pv1 cur1)

/-- The size stored at address `a` (0 when unmapped). -/
def sizeAt (h : Heap) (a : Addr) : Nat :=
  match lookupH h a with
  | none => 0
  | some r => r.size

/-- Sum of the `size` fields of the records at `addrs`. -/
def sumSizes (h : Heap) (addrs : List Addr) : Nat :=
  addrs.foldr (fun a acc => sizeAt h a + acc) 0

/-- The tracking-state invariant, with the list of addresses the debug list
visits made explicit: the list starting at `dbgHead` is exactly `addrs`,
each address appears once, the heap contains no block outside the list and
no address twice, and `debugBytesAlive` is the sum of the live sizes. -/
def InvWith (s : MemState) (addrs : List Addr) : Prop :=
  chainB s.heap none s.dbgHead addrs = true ∧
  addrs.Nodup ∧
  (heapKeys s.heap).Nodup ∧
  (∀ x ∈ heapKeys s.heap, x ∈ addrs) ∧
  s.debugBytesAlive = sumSizes s.heap addrs

/-- The tracking-state invariant. -/
def Inv (s : MemState) : Prop := ∃ addrs, InvWith s addrs

instance (s : MemState) (addrs : List Addr) : Decidable (InvWith s addrs) :=
  inferInstanceAs (Decidable (chainB s.heap none s.dbgHead addrs = true ∧
    addrs.Nodup ∧ (heapKeys s.heap).Nodup ∧
    (∀ x ∈ heapKeys s.heap, x ∈ addrs) ∧
    s.debugBytesAlive = sumSizes s.heap addrs))

/-- The doubly-linked-list validity property exactly as the specification
states it: the head record's `prev` is empty, and any record's `next` and
`prev` neighbours, when they exist in the heap, point back at it. -/
def dllValidB (s : MemState) : Bool :=
  (match s.dbgHead with
   | none => true
   | some a =>
     match lookupH s.heap a with
     | none => true
     | some r => r.prev == none) &&
  s.heap.all (fun q =>
    (match q.2.next with
     | none => true
     | some b =>
       match lookupH s.heap b with
       | none => true
       | some rb => rb.prev == some q.1) &&
    (match q.2.prev with
     | none => true
     | some c =>
       match lookupH s.heap c with
       | none => true
       | some rc => rc.next == some q.1))

/-! ### Association-list heap lemmas -/

theorem lookupH_updateH (h : Heap) (a : Addr) (f : DebugHeader → DebugHeader) (x : Addr) :
    lookupH (updateH h a f) x = if x = a then (lookupH h a).map f else lookupH h x := by
  induction h with
  | nil => by_cases hxa : x = a <;> simp [lookupH, updateH, hxa]
  | cons q t ih =>
    obtain ⟨b, r⟩ := q
    by_cases hab : a = b
    · subst hab
      by_cases hxa : x = a <;> simp [lookupH, updateH, hxa]
    · by_cases hxb : x = b
      · subst hxb
        simp [lookupH, updateH, hab, Ne.symm hab, fun hh => hab (Eq.symm hh)]
      · simp [lookupH, updateH, hab, hxb, ih]

theorem lookupH_eraseH (h : Heap) (a : Addr) (x : Addr) :
    lookupH (eraseH h a) x = if x = a then none else lookupH h x := by
  induction h with
  | nil => by_cases hxa : x = a <;> simp [lookupH, eraseH, hxa]
  | cons q t ih =>
    obtain ⟨b, r⟩ := q
    by_cases hba : b = a
    · subst hba
      by_cases hxb : x = b
      · subst hxb
        simpa [eraseH] using ih
      · simpa [lookupH, eraseH, hxb] using ih
    · by_cases hxb : x = b
      · subst hxb
        simp [lookupH, eraseH, hba]
      · simpa [lookupH, eraseH, hba, hxb] using ih

theorem lookupH_updOpt (h : Heap) (o : Option Addr) (f : DebugHeader → DebugHeader) (x : Addr) :
    lookupH (updOpt h o f) x =
      if o = some x then (lookupH h x).map f else lookupH h x := by
  cases o with
  | none => simp [updOpt]
  | some b =>
    by_cases hxb : x = b
    · subst hxb; simp [updOpt, lookupH_updateH]
    · have hbx : ¬ b = x := fun hh => hxb hh.symm
      simp [updOpt, lookupH_updateH, hxb, hbx]

theorem heapKeys_updateH (h : Heap) (a : Addr) (f : DebugHeader → DebugHeader) :
    heapKeys (updateH h a f) = heapKeys h := by
  induction h with
  | nil => rfl
  | cons q t ih =>
    obtain ⟨b, r⟩ := q
    by_cases hab : a = b <;> simp [heapKeys, updateH, hab] <;>
      simpa [heapKeys] using ih

theorem heapKeys_updOpt (h : Heap) (o : Option Addr) (f : DebugHeader → DebugHeader) :
    heapKeys (updOpt h o f) = heapKeys h := by
  cases o <;> simp [updOpt, heapKeys_updateH]

theorem mem_heapKeys_eraseH (h : Heap) (a : Addr) (x : Addr) :
    x ∈ heapKeys (eraseH h a) ↔ x ∈ heapKeys h ∧ x ≠ a := by
  induction h with
  | nil => simp [heapKeys, eraseH]
  | cons q t ih =>
    obtain ⟨b, r⟩ := q
    by_cases hba : b = a
    · subst hba
      have he : eraseH ((b, r) :: t) b = eraseH t b := by simp [eraseH]
      have hk : heapKeys ((b, r) :: t) = b :: heapKeys t := rfl
      rw [he, hk, ih]
      simp only [List.mem_cons]
      constructor
      · rintro ⟨hm, hne⟩
        exact ⟨Or.inr hm, hne⟩
      · rintro ⟨hm | hm, hne⟩
        · exact absurd hm hne
        · exact ⟨hm, hne⟩
    · have he : eraseH ((b, r) :: t) a = (b, r) :: eraseH t a := by simp [eraseH, hba]
      have hk1 : heapKeys ((b, r) :: eraseH t a) = b :: heapKeys (eraseH t a) := rfl
      have hk : heapKeys ((b, r) :: t) = b :: heapKeys t := rfl
      rw [he, hk1, hk]
      simp only [List.mem_cons]
      rw [ih]
      constructor
      · rintro (rfl | ⟨hm, hne⟩)
        · exact ⟨Or.inl rfl, hba⟩
        · exact ⟨Or.inr hm, hne⟩
      · rintro ⟨rfl | hm, hne⟩
        · exact Or.inl rfl
        · exact Or.inr ⟨hm, hne⟩

theorem nodup_heapKeys_eraseH (h : Heap) (a : Addr)
    (hnd : (heapKeys h).Nodup) : (heapKeys (eraseH h a)).Nodup := by
  induction h with
  | nil => simp [heapKeys, eraseH]
  | cons q t ih =>
    obtain ⟨b, r⟩ := q
    simp only [heapKeys, List.map_cons, List.nodup_cons] at hnd
    by_cases hba : b = a
    · subst hba
      simpa [eraseH] using ih hnd.2
    · have he : eraseH ((b, r) :: t) a = (b, r) :: eraseH t a := by simp [eraseH, hba]
      have hk1 : heapKeys ((b, r) :: eraseH t a) = b :: heapKeys (eraseH t a) := rfl
      rw [he, hk1]
      rw [List.nodup_cons]
      refine ⟨fun hm => ?_, ih hnd.2⟩
      exact hnd.1 ((mem_heapKeys_eraseH t a b).mp hm).1

theorem lookupH_eq_none_iff (h : Heap) (a : Addr) :
    lookupH h a = none ↔ a ∉ heapKeys h := by
  induction h with
  | nil => simp [lookupH, heapKeys]
  | cons q t ih =>
    obtain ⟨b, r⟩ := q
    by_cases hab : a = b <;> simp [lookupH, heapKeys, hab, ih] <;> tauto

theorem mem_heapKeys_of_lookupH (h : Heap) (a : Addr) (r : DebugHeader)
    (hl : lookupH h a = some r) : a ∈ heapKeys h := by
  by_contra hc
  rw [← lookupH_eq_none_iff] at hc
  rw [hc] at hl
  exact Option.noConfusion hl

theorem lookupH_of_mem_nodup (h : Heap) (x : Addr) (r : DebugHeader)
    (hnd : (heapKeys h).Nodup) (hm : (x, r) ∈ h) : lookupH h x = some r := by
  induction h with
  | nil => cases hm
  | cons q t ih =>
    obtain ⟨b, rb⟩ := q
    simp only [heapKeys, List.map_cons, List.nodup_cons] at hnd
    rcases List.mem_cons.mp hm with heq | hmt
    · injection heq with h1 h2
      subst h1
      subst h2
      simp [lookupH]
    · have hxk : x ∈ heapKeys t := List.mem_map_of_mem Prod.fst hmt
      have hxb : ¬ x = b := by
        intro hh
        subst hh
        exact hnd.1 (by simpa [heapKeys] using hxk)
      simp [lookupH, hxb]
      exact ih hnd.2 hmt

/-! ### Chain and segment lemmas -/

theorem chainB_nil_iff (h : Heap) (pv cur : Option Addr) :
    chainB h pv cur [] = true ↔ cur = none := by
  simp [chainB]

theorem chainB_cons_iff (h : Heap) (pv cur : Option Addr) (a : Addr) (rest : List Addr) :
    chainB h pv cur (a :: rest) = true ↔
      cur = some a ∧ ∃ r, lookupH h a = some r ∧ r.prev = pv ∧
        chainB h (some a) r.next rest = true := by
  cases hl : lookupH h a with
  | none => simp [chainB, hl]
  | some r => simp [chainB, hl, and_assoc]

theorem chainB_none_nil (h : Heap) (pv : Option Addr) (addrs : List Addr)
    (hc : chainB h pv none addrs = true) : addrs = [] := by
  cases addrs with
  | nil => rfl
  | cons a rest =>
    rw [chainB_cons_iff] at hc
    exact absurd hc.1 (by simp)

theorem chainB_mem_isSome (h : Heap) (addrs : List Addr) :
    ∀ pv cur, chainB h pv cur addrs = true →
      ∀ a ∈ addrs, (lookupH h a).isSome = true := by
  induction addrs with
  | nil =>
    intro pv cur _ a ha
    cases ha
  | cons b rest ih =>
    intro pv cur hc a ha
    rw [chainB_cons_iff] at hc
    obtain ⟨hcur, r, hl, hp, hrest⟩ := hc
    rcases List.mem_cons.mp ha with rfl | ha'
    · simp [hl]
    · exact ih (some b) r.next hrest a ha'

/-- The two fields `chainB` inspects. -/
def linkView (r : DebugHeader) : Option Addr × Option Addr := (r.prev, r.next)

theorem chainB_of_congr (h1 h2 : Heap) (addrs : List Addr)
    (hlk : ∀ x ∈ addrs, (lookupH h2 x).map linkView = (lookupH h1 x).map linkView) :
    ∀ pv cur, chainB h1 pv cur addrs = true → chainB h2 pv cur addrs = true := by
  induction addrs with
  | nil =>
    intro pv cur hc
    rw [chainB_nil_iff] at hc ⊢
    exact hc
  | cons a rest ih =>
    intro pv cur hc
    rw [chainB_cons_iff] at hc ⊢
    obtain ⟨hcur, r, hl, hp, hrest⟩ := hc
    have h2a := hlk a (List.mem_cons_self a rest)
    rw [hl] at h2a
    cases hl2 : lookupH h2 a with
    | none =>
      rw [hl2] at h2a
      exact absurd h2a (by simp)
    | some r2 =>
      rw [hl2] at h2a
      simp only [Option.map_some', Option.some.injEq, linkView, Prod.mk.injEq] at h2a
      obtain ⟨hprev, hnext⟩ := h2a
      refine ⟨hcur, r2, rfl, by rw [hprev]; exact hp, ?_⟩
      rw [hnext]
      exact ih (fun x hx => hlk x (List.mem_cons_of_mem a hx)) (some a) r.next hrest

theorem segB_nil_iff (h : Heap) (pv cur pv1 cur1 : Option Addr) :
    segB h pv cur [] pv1 cur1 = true ↔ pv = pv1 ∧ cur = cur1 := by
  simp [segB]

theorem segB_cons_iff (h : Heap) (pv cur pv1 cur1 : Option Addr) (a : Addr) (rest : List Addr) :
    segB h pv cur (a :: rest) pv1 cur1 = true ↔
      cur = some a ∧ ∃ r, lookupH h a = some r ∧ r.prev = pv ∧
        segB h (some a) r.next rest pv1 cur1 = true := by
  cases hl : lookupH h a with
  | none => simp [segB, hl]
  | some r => simp [segB, hl, and_assoc]

theorem chainB_split (h : Heap) (l2 : List Addr) :
    ∀ (l1 : List Addr) (pv cur : Option Addr), chainB h pv cur (l1 ++ l2) = true →
      ∃ pv1 cur1, segB h pv cur l1 pv1 cur1 = true ∧ chainB h pv1 cur1 l2 = true := by
  intro l1
  induction l1 with
  | nil =>
    intro pv cur hc
    exact ⟨pv, cur, (segB_nil_iff h pv cur pv cur).mpr ⟨rfl, rfl⟩, hc⟩
  | cons a rest ih =>
    intro pv cur hc
    rw [List.cons_append, chainB_cons_iff] at hc
    obtain ⟨hcur, r, hl, hp, hrest⟩ := hc
    obtain ⟨pv1, cur1, hseg, hchain⟩ := ih (some a) r.next hrest
    exact ⟨pv1, cur1,
      (segB_cons_iff h pv cur pv1 cur1 a rest).mpr ⟨hcur, r, hl, hp, hseg⟩, hchain⟩

theorem segB_append_chainB (h : Heap) (l2 : List Addr) :
    ∀ (l1 : List Addr) (pv cur pv1 cur1 : Option Addr),
      segB h pv cur l1 pv1 cur1 = true → chainB h pv1 cur1 l2 = true →
      chainB h pv cur (l1 ++ l2) = true := by
  intro l1
  induction l1 with
  | nil =>
    intro pv cur pv1 cur1 hseg hchain
    obtain ⟨rfl, rfl⟩ := (segB_nil_iff h pv cur pv1 cur1).mp hseg
    exact hchain
  | cons a rest ih =>
    intro pv cur pv1 cur1 hseg hchain
    rw [segB_cons_iff] at hseg
    obtain ⟨hcur, r, hl, hp, hseg'⟩ := hseg
    rw [List.cons_append, chainB_cons_iff]
    exact ⟨hcur, r, hl, hp, ih (some a) r.next pv1 cur1 hseg' hchain⟩

theorem segB_exit_mem (h : Heap) :
    ∀ (l : List Addr) (pv cur pv1 cur1 : Option Addr),
      segB h pv cur l pv1 cur1 = true → l ≠ [] → ∃ z ∈ l, pv1 = some z := by
  intro l
  induction l with
  | nil =>
    intro pv cur pv1 cur1 _ hne
    exact absurd rfl hne
  | cons a rest ih =>
    intro pv cur pv1 cur1 hseg _
    rw [segB_cons_iff] at hseg
    obtain ⟨hcur, r, hl, hp, hseg'⟩ := hseg
    cases rest with
    | nil =>
      obtain ⟨hpv1, _⟩ := (segB_nil_iff h (some a) r.next pv1 cur1).mp hseg'
      exact ⟨a, List.mem_cons_self a [], hpv1.symm⟩
    | cons b rest' =>
      obtain ⟨z, hz, hpv1⟩ := ih (some a) r.next pv1 cur1 hseg' (by simp)
      exact ⟨z, List.mem_cons_of_mem a hz, hpv1⟩

theorem chainB_reprev (h h2 : Heap) (l : List Addr) (pv pv2 cur : Option Addr)
    (hnd : l.Nodup)
    (hshape : ∀ x ∈ l, lookupH h2 x =
      if cur = some x then (lookupH h x).map (fun rr => { rr with prev := pv2 })
      else lookupH h x)
    (hc : chainB h pv cur l = true) : chainB h2 pv2 cur l = true := by
  cases l with
  | nil =>
    rw [chainB_nil_iff] at hc ⊢
    exact hc
  | cons a rest =>
    rw [chainB_cons_iff] at hc ⊢
    obtain ⟨hcur, r, hl, hp, hrest⟩ := hc
    subst hcur
    refine ⟨rfl, { r with prev := pv2 }, ?_, rfl, ?_⟩
    · rw [hshape a (List.mem_cons_self a rest), if_pos rfl, hl]
      rfl
    · show chainB h2 (some a) r.next rest = true
      apply chainB_of_congr h h2 rest ?_ (some a) r.next hrest
      intro x hx
      have hxa : x ≠ a := fun hh => (List.nodup_cons.mp hnd).1 (hh ▸ hx)
      rw [hshape x (List.mem_cons_of_mem a hx),
        if_neg (fun hh : some a = some x => hxa (Option.some.injEq a x ▸ hh).symm)]

theorem segB_renext (h h2 : Heap) (nx : Option Addr) :
    ∀ (l : List Addr) (pv cur curOld pv1 : Option Addr), l.Nodup → l ≠ [] →
      (∀ x ∈ l, lookupH h2 x =
        if pv1 = some x then (lookupH h x).map (fun rr => { rr with next := nx })
        else lookupH h x) →
      segB h pv cur l pv1 curOld = true → segB h2 pv cur l pv1 nx = true := by
  intro l
  induction l with
  | nil =>
    intro pv cur curOld pv1 _ hne _ _
    exact absurd rfl hne
  | cons a rest ih =>
    intro pv cur curOld pv1 hnd _ hshape hseg
    rw [segB_cons_iff] at hseg
    obtain ⟨hcur, r, hl, hp, hseg'⟩ := hseg
    cases rest with
    | nil =>
      obtain ⟨hpv1, _⟩ := (segB_nil_iff h (some a) r.next pv1 curOld).mp hseg'
      rw [segB_cons_iff]
      refine ⟨hcur, { r with next := nx }, ?_, hp, ?_⟩
      · rw [hshape a (List.mem_cons_self a []), if_pos hpv1.symm, hl]
        rfl
      · show segB h2 (some a) nx [] pv1 nx = true
        exact (segB_nil_iff h2 (some a) nx pv1 nx).mpr ⟨hpv1, rfl⟩
    | cons b rest' =>
      obtain ⟨z, hz, hpv1⟩ := segB_exit_mem h (b :: rest') (some a) r.next pv1 curOld hseg' (by simp)
      have hza : z ≠ a := fun hh => (List.nodup_cons.mp hnd).1 (hh ▸ hz)
      rw [segB_cons_iff]
      refine ⟨hcur, r, ?_, hp, ?_⟩
      · rw [hshape a (List.mem_cons_self a (b :: rest')),
          if_neg (fun hh : pv1 = some a => hza (by rw [hpv1] at hh; exact (Option.some.injEq z a ▸ hh)))]
        exact hl
      · exact ih (some a) r.next curOld pv1 (List.nodup_cons.mp hnd).2 (by simp)
          (fun x hx => hshape x (List.mem_cons_of_mem a hx)) hseg'

/-! ### Size-sum lemmas -/

theorem sumSizes_cons (h : Heap) (a : Addr) (l : List Addr) :
    sumSizes h (a :: l) = sizeAt h a + sumSizes h l := rfl

theorem sumSizes_append (h : Heap) (l1 l2 : List Addr) :
    sumSizes h (l1 ++ l2) = sumSizes h l1 + sumSizes h l2 := by
  induction l1 with
  | nil => simp [sumSizes]
  | cons a t ih =>
    rw [List.cons_append, sumSizes_cons, sumSizes_cons, ih]
    omega

theorem sumSizes_congr (h1 h2 : Heap) (l : List Addr)
    (hx : ∀ x ∈ l, sizeAt h1 x = sizeAt h2 x) : sumSizes h1 l = sumSizes h2 l := by
  induction l with
  | nil => rfl
  | cons a t ih =>
    rw [sumSizes_cons, sumSizes_cons, hx a (List.mem_cons_self a t),
      ih (fun x hxm => hx x (List.mem_cons_of_mem a hxm))]

theorem chainB_head_mem (h : Heap) (pv : Option Addr) (b : Addr) (addrs : List Addr)
    (hc : chainB h pv (some b) addrs = true) : b ∈ addrs := by
  cases addrs with
  | nil => exact absurd ((chainB_nil_iff h pv (some b)).mp hc) (by simp)
  | cons c rest =>
    rw [chainB_cons_iff] at hc
    obtain ⟨hcur, _⟩ := hc
    rw [Option.some.injEq] at hcur
    exact hcur ▸ List.mem_cons_self c rest

/-! ### Invariant preservation -/

theorem invWith_push (heap : Heap) (hd : Option Addr) (bytes cnt : Nat)
    (addrs : List Addr) (sz : Nat) (a : Addr)
    (hI : InvWith ⟨heap, hd, bytes, cnt⟩ addrs) (hfresh : lookupH heap a = none) :
    InvWith ⟨updOpt ((a, ⟨sz, cnt + 1, hd, none⟩) :: heap) hd
        (fun r => { r with prev := some a }), some a, bytes + sz, cnt + 1⟩
      (a :: addrs) := by
  obtain ⟨hchain, hnd, hknd, hsub, hbytes⟩ := hI
  have haddr_keys : ∀ x ∈ addrs, x ∈ heapKeys heap := by
    intro x hx
    have := chainB_mem_isSome heap addrs none hd hchain x hx
    exact mem_heapKeys_of_lookupH heap x ((lookupH heap x).get this)
      (Option.eq_some_of_isSome this)
  have ha_not : a ∉ heapKeys heap := (lookupH_eq_none_iff heap a).mp hfresh
  have ha_addrs : a ∉ addrs := fun hm => ha_not (haddr_keys a hm)
  have lookup_h1 : ∀ x, lookupH ((a, (⟨sz, cnt + 1, hd, none⟩ : DebugHeader)) :: heap) x =
      if x = a then some ⟨sz, cnt + 1, hd, none⟩ else lookupH heap x := by
    intro x
    simp [lookupH]
  have lookup_h2 : ∀ x, lookupH (updOpt ((a, (⟨sz, cnt + 1, hd, none⟩ : DebugHeader)) :: heap) hd
      (fun r => { r with prev := some a })) x =
      if hd = some x
      then (if x = a then some (⟨sz, cnt + 1, hd, none⟩ : DebugHeader) else lookupH heap x).map
        (fun r => { r with prev := some a })
      else if x = a then some ⟨sz, cnt + 1, hd, none⟩ else lookupH heap x := by
    intro x
    rw [lookupH_updOpt, lookup_h1]
  have hd_ne_a : hd = none ∨ ∃ b, hd = some b ∧ b ≠ a := by
    cases hhd : hd with
    | none => exact Or.inl rfl
    | some b =>
      refine Or.inr ⟨b, rfl, fun hba => ?_⟩
      have hbm : b ∈ addrs := chainB_head_mem heap none b addrs (hhd ▸ hchain)
      exact ha_addrs (hba ▸ hbm)
  have lookup_h2_a : lookupH (updOpt ((a, (⟨sz, cnt + 1, hd, none⟩ : DebugHeader)) :: heap) hd
      (fun r => { r with prev := some a })) a = some ⟨sz, cnt + 1, hd, none⟩ := by
    rw [lookup_h2]
    rcases hd_ne_a with hhd | ⟨b, hhd, hba⟩
    · simp [hhd]
    · rw [hhd, if_neg (fun hh : some b = some a => hba (Option.some.injEq b a ▸ hh)), if_pos rfl]
  have lookup_h2_ne : ∀ x, x ≠ a →
      lookupH (updOpt ((a, (⟨sz, cnt + 1, hd, none⟩ : DebugHeader)) :: heap) hd
        (fun r => { r with prev := some a })) x =
      if hd = some x then (lookupH heap x).map (fun r => { r with prev := some a })
      else lookupH heap x := by
    intro x hxa
    rw [lookup_h2, if_neg hxa]
  refine ⟨?_, ?_, ?_, ?_, ?_⟩
  · -- the chain gains `a` at the front
    rw [chainB_cons_iff]
    refine ⟨rfl, ⟨sz, cnt + 1, hd, none⟩, lookup_h2_a, rfl, ?_⟩
    show chainB _ (some a) hd addrs = true
    rcases hd_ne_a with hhd | ⟨b, hhd, _⟩
    · subst hhd
      rw [chainB_none_nil heap none addrs hchain]
      exact (chainB_nil_iff _ (some a) none).mpr rfl
    · subst hhd
      apply chainB_reprev heap _ addrs none (some a) (some b) hnd ?_ hchain
      intro x hx
      have hxa : x ≠ a := fun hh => ha_addrs (hh ▸ hx)
      rw [lookup_h2_ne x hxa]
  · exact List.nodup_cons.mpr ⟨ha_addrs, hnd⟩
  · show (heapKeys (updOpt _ hd _)).Nodup
    rw [heapKeys_updOpt]
    exact List.nodup_cons.mpr ⟨ha_not, hknd⟩
  · show ∀ x ∈ heapKeys (updOpt _ hd _), x ∈ a :: addrs
    rw [heapKeys_updOpt]
    intro x hx
    rcases List.mem_cons.mp hx with rfl | hx'
    · exact List.mem_cons_self x addrs
    · exact List.mem_cons_of_mem a (hsub x hx')
  · -- bytes
    have hsz_a : sizeAt (updOpt ((a, (⟨sz, cnt + 1, hd, none⟩ : DebugHeader)) :: heap) hd
        (fun r => { r with prev := some a })) a = sz := by
      rw [sizeAt, lookup_h2_a]
    have hsum : sumSizes (updOpt ((a, (⟨sz, cnt + 1, hd, none⟩ : DebugHeader)) :: heap) hd
        (fun r => { r with prev := some a })) addrs = sumSizes heap addrs := by
      apply sumSizes_congr
      intro x hx
      have hxa : x ≠ a := fun hh => ha_addrs (hh ▸ hx)
      rw [sizeAt, sizeAt, lookup_h2_ne x hxa]
      by_cases hhd : hd = some x
      · rw [if_pos hhd]
        cases lookupH heap x <;> rfl
      · rw [if_neg hhd]
    have hbytes' : bytes = sumSizes heap addrs := hbytes
    show bytes + sz = sumSizes _ (a :: addrs)
    rw [sumSizes_cons, hsz_a, hsum, hbytes']
    omega

/-- The head pointer left behind by an unlink: the record's own `next`
when the record was first in the list, the old head otherwise. -/
def unlinkHead (rpv rnx hd : Option Addr) : Option Addr :=
  match rpv with
  | none => rnx
  | some _ => hd

theorem invWith_unlink (heap : Heap) (hd : Option Addr) (bytes cnt : Nat)
    (l1 l2 : List Addr) (a : Addr) (rsz rnum : Nat) (rnx rpv : Option Addr)
    (hI : InvWith ⟨heap, hd, bytes, cnt⟩ (l1 ++ a :: l2))
    (hr : lookupH heap a = some ⟨rsz, rnum, rnx, rpv⟩) :
    InvWith ⟨eraseH (updOpt (updOpt heap rpv (fun x => { x with next := rnx }))
        rnx (fun x => { x with prev := rpv })) a,
      unlinkHead rpv rnx hd,
      bytes - rsz, cnt⟩ (l1 ++ l2) := by
  obtain ⟨hchain0, hnd, hknd0, hsub0, hbytes0⟩ := hI
  have hchain : chainB heap none hd (l1 ++ a :: l2) = true := hchain0
  have hknd : (heapKeys heap).Nodup := hknd0
  have hsub : ∀ x ∈ heapKeys heap, x ∈ l1 ++ a :: l2 := hsub0
  have hbytes : bytes = sumSizes heap (l1 ++ a :: l2) := hbytes0
  -- nodup decomposition
  have hnd1 : l1.Nodup := ((List.nodup_append.mp hnd).1)
  have hndc : (a :: l2).Nodup := ((List.nodup_append.mp hnd).2.1)
  have hnd2 : l2.Nodup := (List.nodup_cons.mp hndc).2
  have ha_l2 : a ∉ l2 := (List.nodup_cons.mp hndc).1
  have hdisj : List.Disjoint l1 (a :: l2) := (List.nodup_append.mp hnd).2.2
  have ha_l1 : a ∉ l1 := fun hm => hdisj hm (List.mem_cons_self a l2)
  have hdisj12 : ∀ x ∈ l1, x ∉ l2 := fun x hx hx2 => hdisj hx (List.mem_cons_of_mem a hx2)
  -- chain decomposition
  obtain ⟨pv1, cur1, hseg, hch2⟩ := chainB_split heap (a :: l2) l1 none hd hchain
  rw [chainB_cons_iff] at hch2
  obtain ⟨hcur1, r', hl', hp', hch3⟩ := hch2
  rw [hr] at hl'
  injection hl' with hl''
  subst hl''
  -- hp' : rpv = pv1, hch3 : chainB heap (some a) rnx l2 (fields of the record)
  have hp2 : rpv = pv1 := hp'
  have hch4 : chainB heap (some a) rnx l2 = true := hch3
  -- neighbour membership facts
  have hnext_mem : ∀ c, rnx = some c → c ∈ l2 := by
    intro c hc
    exact chainB_head_mem heap (some a) c l2 (hc ▸ hch4)
  have hprev_mem : ∀ z, rpv = some z → z ∈ l1 := by
    intro z hz
    by_cases hl1 : l1 = []
    · subst hl1
      obtain ⟨hpv, _⟩ := (segB_nil_iff heap none hd pv1 cur1).mp hseg
      rw [hp2, ← hpv] at hz
      exact Option.noConfusion hz
    · obtain ⟨z', hz', hpv1⟩ := segB_exit_mem heap l1 none hd pv1 cur1 hseg hl1
      rw [hp2, hpv1] at hz
      injection hz with hzz
      exact hzz ▸ hz'
  -- pointwise heap reads after the unlink surgery
  have lookup_hF : ∀ x, x ≠ a →
      lookupH (eraseH (updOpt (updOpt heap rpv (fun x => { x with next := rnx }))
          rnx (fun x => { x with prev := rpv })) a) x =
        if rnx = some x
        then (if rpv = some x
              then (lookupH heap x).map (fun x => { x with next := rnx })
              else lookupH heap x).map (fun x => { x with prev := rpv })
        else if rpv = some x
             then (lookupH heap x).map (fun x => { x with next := rnx })
             else lookupH heap x := by
    intro x hxa
    rw [lookupH_eraseH, if_neg hxa, lookupH_updOpt, lookupH_updOpt]
  have shape_l1 : ∀ x ∈ l1,
      lookupH (eraseH (updOpt (updOpt heap rpv (fun x => { x with next := rnx }))
          rnx (fun x => { x with prev := rpv })) a) x =
        if pv1 = some x
        then (lookupH heap x).map (fun x => { x with next := rnx })
        else lookupH heap x := by
    intro x hx
    have hxa : x ≠ a := fun hh => ha_l1 (hh ▸ hx)
    have hnx : ¬ rnx = some x := by
      intro hc
      exact hdisj12 x hx (hnext_mem x hc)
    rw [lookup_hF x hxa, if_neg hnx, hp2]
  have shape_l2 : ∀ x ∈ l2,
      lookupH (eraseH (updOpt (updOpt heap rpv (fun x => { x with next := rnx }))
          rnx (fun x => { x with prev := rpv })) a) x =
        if rnx = some x
        then (lookupH heap x).map (fun x => { x with prev := rpv })
        else lookupH heap x := by
    intro x hx
    have hxa : x ≠ a := fun hh => ha_l2 (hh ▸ hx)
    have hnp : ¬ rpv = some x := by
      intro hc
      exact hdisj12 x (hprev_mem x hc) hx
    rw [lookup_hF x hxa, if_neg hnp]
  refine ⟨?_, ?_, ?_, ?_, ?_⟩
  · -- the chain after the unlink
    show chainB (eraseH (updOpt (updOpt heap rpv (fun x => { x with next := rnx }))
        rnx (fun x => { x with prev := rpv })) a) none
        (unlinkHead rpv rnx hd) (l1 ++ l2) = true
    by_cases hl1 : l1 = []
    · subst hl1
      obtain ⟨hpv, _⟩ := (segB_nil_iff heap none hd pv1 cur1).mp hseg
      subst hpv
      subst hp2
      rw [List.nil_append]
      exact chainB_reprev heap _ l2 (some a) none rnx hnd2
        (fun x hx => shape_l2 x hx) hch4
    · obtain ⟨z, hz, hpv1⟩ := segB_exit_mem heap l1 none hd pv1 cur1 hseg hl1
      subst hpv1
      subst hp2
      have hsegF := segB_renext heap _ rnx l1 none hd cur1 (some z) hnd1 hl1
        (fun x hx => shape_l1 x hx) hseg
      have hch2F := chainB_reprev heap _ l2 (some a) (some z) rnx hnd2
        (fun x hx => shape_l2 x hx) hch4
      exact segB_append_chainB _ l2 l1 none hd (some z) rnx hsegF hch2F
  · exact List.Nodup.sublist ((List.sublist_cons_self a l2).append_left l1) hnd
  · show (heapKeys (eraseH (updOpt (updOpt heap rpv (fun x => { x with next := rnx }))
        rnx (fun x => { x with prev := rpv })) a)).Nodup
    apply nodup_heapKeys_eraseH
    rw [heapKeys_updOpt, heapKeys_updOpt]
    exact hknd
  · show ∀ x ∈ heapKeys (eraseH (updOpt (updOpt heap rpv (fun x => { x with next := rnx }))
        rnx (fun x => { x with prev := rpv })) a), x ∈ l1 ++ l2
    intro x hx
    obtain ⟨hxk, hxa⟩ := (mem_heapKeys_eraseH _ a x).mp hx
    rw [heapKeys_updOpt, heapKeys_updOpt] at hxk
    rcases List.mem_append.mp (hsub x hxk) with hx1 | hx2
    · exact List.mem_append.mpr (Or.inl hx1)
    · rcases List.mem_cons.mp hx2 with rfl | hx2'
      · exact absurd rfl hxa
      · exact List.mem_append.mpr (Or.inr hx2')
  · -- bytes
    show bytes - rsz = sumSizes (eraseH (updOpt (updOpt heap rpv
        (fun x => { x with next := rnx }))
        rnx (fun x => { x with prev := rpv })) a) (l1 ++ l2)
    have hsz_a : sizeAt heap a = rsz := by rw [sizeAt, hr]
    have hsum : sumSizes (eraseH (updOpt (updOpt heap rpv
          (fun x => { x with next := rnx }))
          rnx (fun x => { x with prev := rpv })) a) (l1 ++ l2) =
        sumSizes heap (l1 ++ l2) := by
      apply sumSizes_congr
      intro x hx
      have hxa : x ≠ a := by
        intro hh
        subst hh
        rcases List.mem_append.mp hx with hx1 | hx2
        · exact ha_l1 hx1
        · exact ha_l2 hx2
      rw [sizeAt, sizeAt, lookup_hF x hxa]
      by_cases hnx : rnx = some x
      · rw [if_pos hnx]
        by_cases hnp : rpv = some x
        · rw [if_pos hnp]
          cases lookupH heap x <;> rfl
        · rw [if_neg hnp]
          cases lookupH heap x <;> rfl
      · rw [if_neg hnx]
        by_cases hnp : rpv = some x
        · rw [if_pos hnp]
          cases lookupH heap x <;> rfl
        · rw [if_neg hnp]
    rw [hsum]
    rw [hbytes, sumSizes_append, sumSizes_append, sumSizes_cons, hsz_a]
    omega

theorem invWith_resize_inplace (heap : Heap) (hd : Option Addr) (bytes cnt : Nat)
    (addrs : List Addr) (a : Addr) (sz : Nat) (old : DebugHeader)
    (hI : InvWith ⟨heap, hd, bytes, cnt⟩ addrs)
    (hr : lookupH heap a = some old) :
    InvWith ⟨updateH heap a (fun r => { r with size := sz }), hd,
      bytes - old.size + sz, cnt⟩ addrs := by
  obtain ⟨hchain0, hnd, hknd0, hsub0, hbytes0⟩ := hI
  have hchain : chainB heap none hd addrs = true := hchain0
  have hknd : (heapKeys heap).Nodup := hknd0
  have hsub : ∀ x ∈ heapKeys heap, x ∈ addrs := hsub0
  have hbytes : bytes = sumSizes heap addrs := hbytes0
  have ha : a ∈ addrs := hsub a (mem_heapKeys_of_lookupH heap a old hr)
  refine ⟨?_, hnd, ?_, ?_, ?_⟩
  · -- links untouched, so the chain is unchanged
    show chainB (updateH heap a (fun r => { r with size := sz })) none hd addrs = true
    apply chainB_of_congr heap _ addrs ?_ none hd hchain
    intro x hx
    rw [lookupH_updateH]
    by_cases hxa : x = a
    · rw [if_pos hxa, hxa, hr]
      rfl
    · rw [if_neg hxa]
  · show (heapKeys (updateH heap a (fun r => { r with size := sz }))).Nodup
    rw [heapKeys_updateH]
    exact hknd
  · show ∀ x ∈ heapKeys (updateH heap a (fun r => { r with size := sz })), x ∈ addrs
    rw [heapKeys_updateH]
    exact hsub
  · show bytes - old.size + sz = sumSizes (updateH heap a (fun r => { r with size := sz })) addrs
    obtain ⟨l1, l2, rfl⟩ := List.append_of_mem ha
    have hnd1 : l1.Nodup := ((List.nodup_append.mp hnd).1)
    have hndc : (a :: l2).Nodup := ((List.nodup_append.mp hnd).2.1)
    have ha_l2 : a ∉ l2 := (List.nodup_cons.mp hndc).1
    have hdisj : List.Disjoint l1 (a :: l2) := (List.nodup_append.mp hnd).2.2
    have ha_l1 : a ∉ l1 := fun hm => hdisj hm (List.mem_cons_self a l2)
    have hside : ∀ x ∈ l1 ++ l2,
        sizeAt (updateH heap a (fun r => { r with size := sz })) x = sizeAt heap x := by
      intro x hx
      have hxa : x ≠ a := by
        intro hh
        subst hh
        rcases List.mem_append.mp hx with hx1 | hx2
        · exact ha_l1 hx1
        · exact ha_l2 hx2
      rw [sizeAt, sizeAt, lookupH_updateH, if_neg hxa]
    have hsz_a : sizeAt (updateH heap a (fun r => { r with size := sz })) a = sz := by
      rw [sizeAt, lookupH_updateH, if_pos rfl, hr]
      rfl
    have hsz_a0 : sizeAt heap a = old.size := by rw [sizeAt, hr]
    rw [sumSizes_append, sumSizes_cons] at hbytes ⊢
    rw [hsz_a0] at hbytes
    rw [hsz_a]
    have e1 : sumSizes (updateH heap a (fun r => { r with size := sz })) l1 =
        sumSizes heap l1 :=
      sumSizes_congr _ _ l1 (fun x hx => hside x (List.mem_append.mpr (Or.inl hx)))
    have e2 : sumSizes (updateH heap a (fun r => { r with size := sz })) l2 =
        sumSizes heap l2 :=
      sumSizes_congr _ _ l2 (fun x hx => hside x (List.mem_append.mpr (Or.inr hx)))
    rw [e1, e2, hbytes]
    omega


theorem invWith_move (heap : Heap) (hd : Option Addr) (bytes cnt : Nat)
    (l1 l2 : List Addr) (a a2 : Addr) (sz rsz rnum : Nat) (rnx rpv : Option Addr)
    (hI : InvWith ⟨heap, hd, bytes, cnt⟩ (l1 ++ a :: l2))
    (hr : lookupH heap a = some ⟨rsz, rnum, rnx, rpv⟩)
    (hfresh : lookupH heap a2 = none) :
    InvWith ⟨updateH (updOpt (updOpt ((a2, ⟨rsz, rnum, rnx, rpv⟩) :: eraseH heap a)
          rpv (fun r => { r with next := some a2 }))
          rnx (fun r => { r with prev := some a2 }))
        a2 (fun r => { r with size := sz }),
      unlinkHead rpv (some a2) hd,
      bytes - rsz + sz, cnt⟩ (l1 ++ a2 :: l2) := by
  obtain ⟨hchain0, hnd, hknd0, hsub0, hbytes0⟩ := hI
  have hchain : chainB heap none hd (l1 ++ a :: l2) = true := hchain0
  have hknd : (heapKeys heap).Nodup := hknd0
  have hsub : ∀ x ∈ heapKeys heap, x ∈ l1 ++ a :: l2 := hsub0
  have hbytes : bytes = sumSizes heap (l1 ++ a :: l2) := hbytes0
  -- nodup decomposition
  have hnd1 : l1.Nodup := ((List.nodup_append.mp hnd).1)
  have hndc : (a :: l2).Nodup := ((List.nodup_append.mp hnd).2.1)
  have hnd2 : l2.Nodup := (List.nodup_cons.mp hndc).2
  have ha_l2 : a ∉ l2 := (List.nodup_cons.mp hndc).1
  have hdisj : List.Disjoint l1 (a :: l2) := (List.nodup_append.mp hnd).2.2
  have ha_l1 : a ∉ l1 := fun hm => hdisj hm (List.mem_cons_self a l2)
  have hdisj12 : ∀ x ∈ l1, x ∉ l2 := fun x hx hx2 => hdisj hx (List.mem_cons_of_mem a hx2)
  -- the fresh address is nowhere in the current list
  have ha2_keys : a2 ∉ heapKeys heap := (lookupH_eq_none_iff heap a2).mp hfresh
  have hmem_keys : ∀ x ∈ l1 ++ a :: l2, x ∈ heapKeys heap := by
    intro x hx
    have := chainB_mem_isSome heap (l1 ++ a :: l2) none hd hchain x hx
    exact mem_heapKeys_of_lookupH heap x ((lookupH heap x).get this)
      (Option.eq_some_of_isSome this)
  have ha2_l1 : a2 ∉ l1 := fun hm =>
    ha2_keys (hmem_keys a2 (List.mem_append.mpr (Or.inl hm)))
  have ha2_l2 : a2 ∉ l2 := fun hm =>
    ha2_keys (hmem_keys a2 (List.mem_append.mpr (Or.inr (List.mem_cons_of_mem a hm))))
  have ha2_a : a2 ≠ a := fun hm =>
    ha2_keys (hm ▸ mem_heapKeys_of_lookupH heap a ⟨rsz, rnum, rnx, rpv⟩ hr)
  -- chain decomposition
  obtain ⟨pv1, cur1, hseg, hch2⟩ := chainB_split heap (a :: l2) l1 none hd hchain
  rw [chainB_cons_iff] at hch2
  obtain ⟨hcur1, r', hl', hp', hch3⟩ := hch2
  rw [hr] at hl'
  injection hl' with hl''
  subst hl''
  have hp2 : rpv = pv1 := hp'
  have hch4 : chainB heap (some a) rnx l2 = true := hch3
  -- neighbour membership facts
  have hnext_mem : ∀ c, rnx = some c → c ∈ l2 := by
    intro c hc
    exact chainB_head_mem heap (some a) c l2 (hc ▸ hch4)
  have hprev_mem : ∀ z, rpv = some z → z ∈ l1 := by
    intro z hz
    by_cases hl1 : l1 = []
    · subst hl1
      obtain ⟨hpv, _⟩ := (segB_nil_iff heap none hd pv1 cur1).mp hseg
      rw [hp2, ← hpv] at hz
      exact Option.noConfusion hz
    · obtain ⟨z', hz', hpv1⟩ := segB_exit_mem heap l1 none hd pv1 cur1 hseg hl1
      rw [hp2, hpv1] at hz
      injection hz with hzz
      exact hzz ▸ hz'
  have hnx_a2 : ¬ rnx = some a2 := fun hc => ha2_l2 (hnext_mem a2 hc)
  have hpv_a2 : ¬ rpv = some a2 := fun hc => ha2_l1 (hprev_mem a2 hc)
  -- pointwise heap reads after the relocation surgery
  have lookup_base : ∀ x, lookupH ((a2, (⟨rsz, rnum, rnx, rpv⟩ : DebugHeader)) :: eraseH heap a) x =
      if x = a2 then some ⟨rsz, rnum, rnx, rpv⟩
      else if x = a then none else lookupH heap x := by
    intro x
    by_cases hx2 : x = a2
    · simp [lookupH, hx2]
    · rw [show lookupH ((a2, (⟨rsz, rnum, rnx, rpv⟩ : DebugHeader)) :: eraseH heap a) x =
          lookupH (eraseH heap a) x from by simp [lookupH, hx2]]
      rw [lookupH_eraseH, if_neg hx2]
  have lookup_hM_a2 : lookupH (updateH (updOpt (updOpt
        ((a2, (⟨rsz, rnum, rnx, rpv⟩ : DebugHeader)) :: eraseH heap a)
        rpv (fun r => { r with next := some a2 }))
        rnx (fun r => { r with prev := some a2 }))
        a2 (fun r => { r with size := sz })) a2 = some ⟨sz, rnum, rnx, rpv⟩ := by
    rw [lookupH_updateH, if_pos rfl, lookupH_updOpt, if_neg hnx_a2,
      lookupH_updOpt, if_neg hpv_a2, lookup_base, if_pos rfl]
    rfl
  have shape_l1 : ∀ x ∈ l1,
      lookupH (updateH (updOpt (updOpt
          ((a2, (⟨rsz, rnum, rnx, rpv⟩ : DebugHeader)) :: eraseH heap a)
          rpv (fun r => { r with next := some a2 }))
          rnx (fun r => { r with prev := some a2 }))
          a2 (fun r => { r with size := sz })) x =
        if pv1 = some x
        then (lookupH heap x).map (fun r => { r with next := some a2 })
        else lookupH heap x := by
    intro x hx
    have hxa : x ≠ a := fun hh => ha_l1 (hh ▸ hx)
    have hxa2 : x ≠ a2 := fun hh => ha2_l1 (hh ▸ hx)
    have hnx : ¬ rnx = some x := fun hc => hdisj12 x hx (hnext_mem x hc)
    rw [lookupH_updateH, if_neg hxa2, lookupH_updOpt, if_neg hnx,
      lookupH_updOpt, lookup_base, if_neg hxa2, if_neg hxa, hp2]
  have shape_l2 : ∀ x ∈ l2,
      lookupH (updateH (updOpt (updOpt
          ((a2, (⟨rsz, rnum, rnx, rpv⟩ : DebugHeader)) :: eraseH heap a)
          rpv (fun r => { r with next := some a2 }))
          rnx (fun r => { r with prev := some a2 }))
          a2 (fun r => { r with size := sz })) x =
        if rnx = some x
        then (lookupH heap x).map (fun r => { r with prev := some a2 })
        else lookupH heap x := by
    intro x hx
    have hxa : x ≠ a := fun hh => ha_l2 (hh ▸ hx)
    have hxa2 : x ≠ a2 := fun hh => ha2_l2 (hh ▸ hx)
    have hnp : ¬ rpv = some x := fun hc => hdisj12 x (hprev_mem x hc) hx
    rw [lookupH_updateH, if_neg hxa2, lookupH_updOpt, lookupH_updOpt, if_neg hnp,
      lookup_base, if_neg hxa2, if_neg hxa]
  refine ⟨?_, ?_, ?_, ?_, ?_⟩
  · -- the chain with a2 in place of a
    show chainB (updateH (updOpt (updOpt
        ((a2, (⟨rsz, rnum, rnx, rpv⟩ : DebugHeader)) :: eraseH heap a)
        rpv (fun r => { r with next := some a2 }))
        rnx (fun r => { r with prev := some a2 }))
        a2 (fun r => { r with size := sz })) none
        (unlinkHead rpv (some a2) hd) (l1 ++ a2 :: l2) = true
    by_cases hl1 : l1 = []
    · subst hl1
      obtain ⟨hpv, _⟩ := (segB_nil_iff heap none hd pv1 cur1).mp hseg
      subst hpv
      subst hp2
      rw [List.nil_append]
      rw [chainB_cons_iff]
      refine ⟨rfl, ⟨sz, rnum, rnx, none⟩, lookup_hM_a2, rfl, ?_⟩
      show chainB _ (some a2) rnx l2 = true
      exact chainB_reprev heap _ l2 (some a) (some a2) rnx hnd2
        (fun x hx => shape_l2 x hx) hch4
    · obtain ⟨z, hz, hpv1⟩ := segB_exit_mem heap l1 none hd pv1 cur1 hseg hl1
      subst hpv1
      subst hp2
      have hsegF := segB_renext heap _ (some a2) l1 none hd cur1 (some z) hnd1 hl1
        (fun x hx => shape_l1 x hx) hseg
      have htail : chainB (updateH (updOpt (updOpt
          ((a2, (⟨rsz, rnum, rnx, some z⟩ : DebugHeader)) :: eraseH heap a)
          (some z) (fun r => { r with next := some a2 }))
          rnx (fun r => { r with prev := some a2 }))
          a2 (fun r => { r with size := sz })) (some z) (some a2) (a2 :: l2) = true := by
        rw [chainB_cons_iff]
        refine ⟨rfl, ⟨sz, rnum, rnx, some z⟩, lookup_hM_a2, rfl, ?_⟩
        show chainB _ (some a2) rnx l2 = true
        exact chainB_reprev heap _ l2 (some a) (some a2) rnx hnd2
          (fun x hx => shape_l2 x hx) hch4
      exact segB_append_chainB _ (a2 :: l2) l1 none hd (some z) (some a2) hsegF htail
  · -- nodup of the new list
    rw [List.nodup_append] at hnd ⊢
    refine ⟨hnd.1, ?_, ?_⟩
    · exact List.nodup_cons.mpr ⟨ha2_l2, hnd2⟩
    · intro x hx hx2
      rcases List.mem_cons.mp hx2 with rfl | hx2'
      · exact ha2_l1 hx
      · exact hnd.2.2 hx (List.mem_cons_of_mem a hx2')
  · show (heapKeys (updateH (updOpt (updOpt
        ((a2, (⟨rsz, rnum, rnx, rpv⟩ : DebugHeader)) :: eraseH heap a)
        rpv (fun r => { r with next := some a2 }))
        rnx (fun r => { r with prev := some a2 }))
        a2 (fun r => { r with size := sz }))).Nodup
    rw [heapKeys_updateH, heapKeys_updOpt, heapKeys_updOpt]
    have hk : heapKeys ((a2, (⟨rsz, rnum, rnx, rpv⟩ : DebugHeader)) :: eraseH heap a) =
        a2 :: heapKeys (eraseH heap a) := rfl
    rw [hk, List.nodup_cons]
    refine ⟨fun hm => ?_, nodup_heapKeys_eraseH heap a hknd⟩
    exact ha2_keys ((mem_heapKeys_eraseH heap a a2).mp hm).1
  · show ∀ x ∈ heapKeys (updateH (updOpt (updOpt
        ((a2, (⟨rsz, rnum, rnx, rpv⟩ : DebugHeader)) :: eraseH heap a)
        rpv (fun r => { r with next := some a2 }))
        rnx (fun r => { r with prev := some a2 }))
        a2 (fun r => { r with size := sz })), x ∈ l1 ++ a2 :: l2
    rw [heapKeys_updateH, heapKeys_updOpt, heapKeys_updOpt]
    intro x hx
    have hk : heapKeys ((a2, (⟨rsz, rnum, rnx, rpv⟩ : DebugHeader)) :: eraseH heap a) =
        a2 :: heapKeys (eraseH heap a) := rfl
    rw [hk] at hx
    rcases List.mem_cons.mp hx with rfl | hx'
    · exact List.mem_append.mpr (Or.inr (List.mem_cons_self x l2))
    · obtain ⟨hxk, hxa⟩ := (mem_heapKeys_eraseH heap a x).mp hx'
      rcases List.mem_append.mp (hsub x hxk) with hx1 | hx2
      · exact List.mem_append.mpr (Or.inl hx1)
      · rcases List.mem_cons.mp hx2 with rfl | hx2'
        · exact absurd rfl hxa
        · exact List.mem_append.mpr (Or.inr (List.mem_cons_of_mem a2 hx2'))
  · -- bytes
    show bytes - rsz + sz = sumSizes (updateH (updOpt (updOpt
        ((a2, (⟨rsz, rnum, rnx, rpv⟩ : DebugHeader)) :: eraseH heap a)
        rpv (fun r => { r with next := some a2 }))
        rnx (fun r => { r with prev := some a2 }))
        a2 (fun r => { r with size := sz })) (l1 ++ a2 :: l2)
    have hside : ∀ x, x ≠ a → x ≠ a2 →
        sizeAt (updateH (updOpt (updOpt
          ((a2, (⟨rsz, rnum, rnx, rpv⟩ : DebugHeader)) :: eraseH heap a)
          rpv (fun r => { r with next := some a2 }))
          rnx (fun r => { r with prev := some a2 }))
          a2 (fun r => { r with size := sz })) x = sizeAt heap x := by
      intro x hxa hxa2
      rw [sizeAt, sizeAt, lookupH_updateH, if_neg hxa2, lookupH_updOpt,
        lookupH_updOpt, lookup_base, if_neg hxa2, if_neg hxa]
      by_cases hnx : rnx = some x
      · rw [if_pos hnx]
        by_cases hnp : rpv = some x
        · rw [if_pos hnp]
          cases lookupH heap x <;> rfl
        · rw [if_neg hnp]
          cases lookupH heap x <;> rfl
      · rw [if_neg hnx]
        by_cases hnp : rpv = some x
        · rw [if_pos hnp]
          cases lookupH heap x <;> rfl
        · rw [if_neg hnp]
    have hsz_a2 : sizeAt (updateH (updOpt (updOpt
        ((a2, (⟨rsz, rnum, rnx, rpv⟩ : DebugHeader)) :: eraseH heap a)
        rpv (fun r => { r with next := some a2 }))
        rnx (fun r => { r with prev := some a2 }))
        a2 (fun r => { r with size := sz })) a2 = sz := by
      rw [sizeAt, lookup_hM_a2]
    have hsz_a0 : sizeAt heap a = rsz := by rw [sizeAt, hr]
    have e1 : sumSizes (updateH (updOpt (updOpt
        ((a2, (⟨rsz, rnum, rnx, rpv⟩ : DebugHeader)) :: eraseH heap a)
        rpv (fun r => { r with next := some a2 }))
        rnx (fun r => { r with prev := some a2 }))
        a2 (fun r => { r with size := sz })) l1 = sumSizes heap l1 :=
      sumSizes_congr _ _ l1 (fun x hx =>
        hside x (fun hh => ha_l1 (hh ▸ hx)) (fun hh => ha2_l1 (hh ▸ hx)))
    have e2 : sumSizes (updateH (updOpt (updOpt
        ((a2, (⟨rsz, rnum, rnx, rpv⟩ : DebugHeader)) :: eraseH heap a)
        rpv (fun r => { r with next := some a2 }))
        rnx (fun r => { r with prev := some a2 }))
        a2 (fun r => { r with size := sz })) l2 = sumSizes heap l2 :=
      sumSizes_congr _ _ l2 (fun x hx =>
        hside x (fun hh => ha_l2 (hh ▸ hx)) (fun hh => ha2_l2 (hh ▸ hx)))
    rw [sumSizes_append, sumSizes_cons, e1, e2, hsz_a2]
    rw [sumSizes_append, sumSizes_cons, hsz_a0] at hbytes
    omega


theorem inv_debugAlloc (s : MemState) (sz : Nat) (a : Addr) (hI : Inv s)
    (hok : sz = 0 ∨ lookupH s.heap a = none) : Inv ((debugAlloc s sz a).1) := by
  by_cases hsz : sz = 0
  · subst hsz
    exact hI
  · rcases hok with hsz0 | hfresh
    · exact absurd hsz0 hsz
    obtain ⟨addrs, hIw⟩ := hI
    cases s with
    | mk heap hd bytes cnt =>
      refine ⟨a :: addrs, ?_⟩
      have heq : (debugAlloc ⟨heap, hd, bytes, cnt⟩ sz a).1 =
          ⟨updOpt ((a, ⟨sz, cnt + 1, hd, none⟩) :: heap) hd
              (fun r => { r with prev := some a }),
            some a, bytes + sz, cnt + 1⟩ := by
        simp [debugAlloc, hsz]
      rw [heq]
      exact invWith_push heap hd bytes cnt addrs sz a hIw hfresh

theorem inv_debugFree (s : MemState) (p : Option Addr) (hI : Inv s)
    (hok : ∀ a, p = some a → (lookupH s.heap a).isSome = true) :
    Inv (debugFree s p) := by
  cases p with
  | none => exact hI
  | some a =>
    obtain ⟨r, hr⟩ := Option.isSome_iff_exists.mp (hok a rfl)
    obtain ⟨rsz, rnum, rnx, rpv⟩ := r
    obtain ⟨addrs, hIw⟩ := hI
    have ha : a ∈ addrs := hIw.2.2.2.1 a (mem_heapKeys_of_lookupH _ _ _ hr)
    obtain ⟨l1, l2, rfl⟩ := List.append_of_mem ha
    cases s with
    | mk heap hd bytes cnt =>
      refine ⟨l1 ++ l2, ?_⟩
      have heq : debugFree ⟨heap, hd, bytes, cnt⟩ (some a) =
          ⟨eraseH (updOpt (updOpt heap rpv (fun x => { x with next := rnx }))
              rnx (fun x => { x with prev := rpv })) a,
            unlinkHead rpv rnx hd, bytes - rsz, cnt⟩ := by
        cases rpv <;> simp [debugFree, hr, unlinkHead]
      rw [heq]
      exact invWith_unlink heap hd bytes cnt l1 l2 a rsz rnum rnx rpv hIw hr

theorem inv_debugRealloc (s : MemState) (p : Option Addr) (sz : Nat) (a2 : Addr)
    (hI : Inv s) (hok : opOk s (Op.realloc p sz a2) = true) :
    Inv ((debugRealloc s p sz a2).1) := by
  cases p with
  | none =>
    show Inv ((debugAlloc s sz a2).1)
    refine inv_debugAlloc s sz a2 hI ?_
    simpa [opOk, Bool.or_eq_true, beq_iff_eq, Option.isNone_iff_eq_none] using hok
  | some a =>
    simp only [opOk, Bool.and_eq_true, Bool.or_eq_true, beq_iff_eq,
      Option.isNone_iff_eq_none, Option.isSome_iff_exists] at hok
    obtain ⟨⟨r, hr⟩, hrest⟩ := hok
    by_cases hsz : sz = 0
    · subst hsz
      show Inv (debugFree s (some a))
      refine inv_debugFree s (some a) hI ?_
      intro b hb
      injection hb with hb'
      subst hb'
      rw [hr]
      rfl
    · rcases hrest with hsz0 | hcase
      · exact absurd hsz0 hsz
      obtain ⟨rsz, rnum, rnx, rpv⟩ := r
      obtain ⟨addrs, hIw⟩ := hI
      cases s with
      | mk heap hd bytes cnt =>
        rcases hcase with ha2a | hfresh
        · refine ⟨addrs, ?_⟩
          have heq : (debugRealloc ⟨heap, hd, bytes, cnt⟩ (some a) sz a2).1 =
              ⟨updateH heap a (fun r => { r with size := sz }), hd,
                bytes - rsz + sz, cnt⟩ := by
            subst ha2a
            simp [debugRealloc, hsz, hr]
          rw [heq]
          exact invWith_resize_inplace heap hd bytes cnt addrs a sz
            ⟨rsz, rnum, rnx, rpv⟩ hIw hr
        · have hne : ¬ a2 = a := by
            intro hh
            rw [hh, hr] at hfresh
            exact Option.noConfusion hfresh
          have ha : a ∈ addrs := hIw.2.2.2.1 a (mem_heapKeys_of_lookupH _ _ _ hr)
          obtain ⟨l1, l2, rfl⟩ := List.append_of_mem ha
          refine ⟨l1 ++ a2 :: l2, ?_⟩
          have heq : (debugRealloc ⟨heap, hd, bytes, cnt⟩ (some a) sz a2).1 =
              ⟨updateH (updOpt (updOpt ((a2, ⟨rsz, rnum, rnx, rpv⟩) :: eraseH heap a)
                    rpv (fun r => { r with next := some a2 }))
                    rnx (fun r => { r with prev := some a2 }))
                  a2 (fun r => { r with size := sz }),
                unlinkHead rpv (some a2) hd, bytes - rsz + sz, cnt⟩ := by
            cases rpv <;> simp [debugRealloc, hsz, hr, hne, unlinkHead]
          rw [heq]
          exact invWith_move heap hd bytes cnt l1 l2 a a2 sz rsz rnum rnx rpv hIw hr hfresh

theorem inv_step (s : MemState) (op : Op) (hI : Inv s) (hok : opOk s op = true) :
    Inv (step s op) := by
  cases op with
  | alloc sz a =>
    show Inv ((debugAlloc s sz a).1)
    refine inv_debugAlloc s sz a hI ?_
    simpa [opOk, Bool.or_eq_true, beq_iff_eq, Option.isNone_iff_eq_none] using hok
  | free p =>
    show Inv (debugFree s p)
    refine inv_debugFree s p hI ?_
    intro a hp
    subst hp
    exact hok
  | realloc p sz a2 => exact inv_debugRealloc s p sz a2 hI hok

theorem inv_run (ops : List Op) : ∀ s, Inv s → runValidB s ops = true → Inv (run s ops) := by
  induction ops with
  | nil =>
    intro s hI _
    exact hI
  | cons op ops ih =>
    intro s hI hv
    simp only [runValidB, Bool.and_eq_true] at hv
    show Inv (run (step s op) ops)
    exact ih (step s op) (inv_step s op hI hv.1) hv.2

theorem inv_initialState : Inv initialState := ⟨[], by decide⟩


theorem chain_next_prev (h : Heap) (addrs : List Addr) :
    ∀ pv cur, chainB h pv cur addrs = true →
      ∀ x r b rb, x ∈ addrs → lookupH h x = some r → r.next = some b →
        lookupH h b = some rb → rb.prev = some x := by
  induction addrs with
  | nil =>
    intro pv cur _ x r b rb hx
    cases hx
  | cons y rest ih =>
    intro pv cur hc x r b rb hx hlx hnx hlb
    rw [chainB_cons_iff] at hc
    obtain ⟨hcur, ry, hly, hpy, hrest⟩ := hc
    rcases List.mem_cons.mp hx with rfl | hx'
    · rw [hly] at hlx
      injection hlx with he
      subst he
      cases rest with
      | nil =>
        rw [chainB_nil_iff] at hrest
        rw [hnx] at hrest
        exact Option.noConfusion hrest
      | cons z rest' =>
        rw [chainB_cons_iff] at hrest
        obtain ⟨hcz, rz, hlz, hpz, _⟩ := hrest
        rw [hnx] at hcz
        injection hcz with hbz
        subst hbz
        rw [hlz] at hlb
        injection hlb with he2
        subst he2
        exact hpz
    · exact ih (some y) ry.next hrest x r b rb hx' hlx hnx hlb

theorem chain_prev_next (h : Heap) (addrs : List Addr) :
    ∀ pv cur, chainB h pv cur addrs = true →
      (∀ c rc, pv = some c → lookupH h c = some rc → rc.next = cur) →
      ∀ x r c rc, x ∈ addrs → lookupH h x = some r → r.prev = some c →
        lookupH h c = some rc → rc.next = some x := by
  induction addrs with
  | nil =>
    intro pv cur _ _ x r c rc hx
    cases hx
  | cons y rest ih =>
    intro pv cur hc hpv x r c rc hx hlx hpx hlc
    rw [chainB_cons_iff] at hc
    obtain ⟨hcur, ry, hly, hpy, hrest⟩ := hc
    rcases List.mem_cons.mp hx with rfl | hx'
    · rw [hly] at hlx
      injection hlx with he
      subst he
      have hpvc : pv = some c := by rw [← hpy, hpx]
      have := hpv c rc hpvc hlc
      rw [this, hcur]
    · refine ih (some y) ry.next hrest ?_ x r c rc hx' hlx hpx hlc
      intro c' rc' hc' hlc'
      injection hc' with hcy
      subst hcy
      rw [hly] at hlc'
      injection hlc' with he
      subst he
      rfl

theorem dll_of_inv (s : MemState) (hI : Inv s) : dllValidB s = true := by
  obtain ⟨addrs, hchain, hnd, hknd, hsub, hbytes⟩ := hI
  rw [dllValidB, Bool.and_eq_true]
  constructor
  · -- the head record's prev is empty
    cases hhd : s.dbgHead with
    | none => rfl
    | some a =>
      show (match lookupH s.heap a with
            | none => true
            | some r => r.prev == none) = true
      cases hla : lookupH s.heap a with
      | none => rfl
      | some r =>
        show (r.prev == none) = true
        rw [hhd] at hchain
        cases addrs with
        | nil =>
          rw [chainB_nil_iff] at hchain
          exact Option.noConfusion hchain
        | cons b rest =>
          rw [chainB_cons_iff] at hchain
          obtain ⟨hcur, rb, hlb, hpb, _⟩ := hchain
          injection hcur with hab
          subst hab
          rw [hla] at hlb
          injection hlb with he
          subst he
          rw [hpb]
          rfl
  · -- every record's neighbours point back at it
    rw [List.all_eq_true]
    intro q hq
    obtain ⟨x, rx⟩ := q
    have hlx : lookupH s.heap x = some rx := lookupH_of_mem_nodup s.heap x rx hknd hq
    have hxmem : x ∈ addrs := hsub x (List.mem_map_of_mem Prod.fst hq)
    show ((match rx.next with
           | none => true
           | some b =>
             match lookupH s.heap b with
             | none => true
             | some rb => rb.prev == some x) &&
          (match rx.prev with
           | none => true
           | some c =>
             match lookupH s.heap c with
             | none => true
             | some rc => rc.next == some x)) = true
    rw [Bool.and_eq_true]
    constructor
    · cases hnx : rx.next with
      | none => rfl
      | some b =>
        show (match lookupH s.heap b with
              | none => true
              | some rb => rb.prev == some x) = true
        cases hlb : lookupH s.heap b with
        | none => rfl
        | some rb =>
          show (rb.prev == some x) = true
          have := chain_next_prev s.heap addrs none s.dbgHead hchain x rx b rb
            hxmem hlx hnx hlb
          rw [this]
          exact beq_self_eq_true (some x)
    · cases hpx : rx.prev with
      | none => rfl
      | some c =>
        show (match lookupH s.heap c with
              | none => true
              | some rc => rc.next == some x) = true
        cases hlc : lookupH s.heap c with
        | none => rfl
        | some rc =>
          show (rc.next == some x) = true
          have := chain_prev_next s.heap addrs none s.dbgHead hchain
            (fun c' rc' hc' _ => Option.noConfusion hc') x rx c rc
            hxmem hlx hpx hlc
          rw [this]
          exact beq_self_eq_true (some x)

theorem debugFree_count (s : MemState) (p : Option Addr) :
    (debugFree s p).debugAllocCount = s.debugAllocCount := by
  cases p with
  | none => rfl
  | some a => cases hl : lookupH s.heap a <;> simp [debugFree, hl]

theorem step_count_le (s : MemState) (op : Op) :
    s.debugAllocCount ≤ (step s op).debugAllocCount := by
  cases op with
  | alloc sz a =>
    show s.debugAllocCount ≤ ((debugAlloc s sz a).1).debugAllocCount
    by_cases hsz : sz = 0 <;> simp [debugAlloc, hsz] <;> try omega
  | free p =>
    show s.debugAllocCount ≤ (debugFree s p).debugAllocCount
    rw [debugFree_count]
  | realloc p sz a2 =>
    show s.debugAllocCount ≤ ((debugRealloc s p sz a2).1).debugAllocCount
    cases p with
    | none =>
      show s.debugAllocCount ≤ ((debugAlloc s sz a2).1).debugAllocCount
      by_cases hsz : sz = 0 <;> simp [debugAlloc, hsz] <;> try omega
    | some a =>
      by_cases hsz : sz = 0
      · subst hsz
        show s.debugAllocCount ≤ (debugFree s (some a)).debugAllocCount
        rw [debugFree_count]
      · cases hl : lookupH s.heap a with
        | none => simp [debugRealloc, hsz, hl]
        | some old =>
          by_cases h2 : a2 = a <;> simp [debugRealloc, hsz, hl, h2]

theorem assignedSeqs_gt (ops : List Op) :
    ∀ s, ∀ x ∈ assignedSeqs s ops, s.debugAllocCount < x := by
  induction ops with
  | nil =>
    intro s x hx
    cases hx
  | cons op ops ih =>
    intro s x hx
    simp only [assignedSeqs] at hx
    rcases List.mem_append.mp hx with h1 | h2
    · by_cases hlt : s.debugAllocCount < (step s op).debugAllocCount
      · rw [if_pos hlt] at h1
        rcases List.mem_singleton.mp h1 with rfl
        exact hlt
      · rw [if_neg hlt] at h1
        cases h1
    · exact lt_of_le_of_lt (step_count_le s op) (ih (step s op) x h2)

theorem assignedSeqs_pairwise (ops : List Op) :
    ∀ s, (assignedSeqs s ops).Pairwise (· < ·) := by
  induction ops with
  | nil =>
    intro s
    exact List.Pairwise.nil
  | cons op ops ih =>
    intro s
    simp only [assignedSeqs]
    rw [List.pairwise_append]
    refine ⟨?_, ih (step s op), ?_⟩
    · by_cases hlt : s.debugAllocCount < (step s op).debugAllocCount <;>
        simp [hlt]
    · intro x hx y hy
      by_cases hlt : s.debugAllocCount < (step s op).debugAllocCount
      · rw [if_pos hlt] at hx
        rcases List.mem_singleton.mp hx with rfl
        exact assignedSeqs_gt ops (step s op) y hy
      · rw [if_neg hlt] at hx
        cases hx


theorem leakLines_chain (h : Heap) (addrs : List Addr) :
    ∀ pv cur fuel, chainB h pv cur addrs = true → addrs.length ≤ fuel →
      leakLines h cur fuel = addrs.map (fun a =>
        match lookupH h a with
        | none => ""
        | some r => leakLine r) := by
  induction addrs with
  | nil =>
    intro pv cur fuel hc _
    rw [chainB_nil_iff] at hc
    subst hc
    cases fuel <;> rfl
  | cons a rest ih =>
    intro pv cur fuel hc hlen
    rw [chainB_cons_iff] at hc
    obtain ⟨hcur, r, hl, hp, hrest⟩ := hc
    subst hcur
    cases fuel with
    | zero => simp at hlen
    | succ f =>
      simp only [leakLines, List.map_cons]
      rw [hl]
      show leakLine r :: leakLines h r.next f = leakLine r :: rest.map _
      refine congrArg (leakLine r :: ·) ?_
      refine ih (some a) r.next f hrest ?_
      have : (a :: rest).length = rest.length + 1 := List.length_cons a rest
      omega


/-! ### Claim theorems -/

/-- Claim C1: the claim states that `xfree` is a pass-through that releases
the block via the underlying `free` and leaves the debug tracking state
(`dbgHead`, `debugBytesAlive`, `debugAllocCount`, record links) unchanged.
The code contradicts this: `xfree`'s body is a copy of `debugFree`, so on a
raw `xalloc` pointer it interprets the preceding bytes as a `DebugHeader`
and unlinks that phantom record.  Concretely, with one live debug record
(sequence 1, 5 bytes) at 100 and an `xalloc` pointer 200 whose phantom
header reads as size 3 with null links, `xfree` resets `dbgHead` from
`some 100` to `none` and `debugBytesAlive` from 5 to 2 (and frees the
address 200 minus the header size rather than 200). -/
theorem c1_xfree_clobbers_tracking :
    xfree ⟨[(100, ⟨5, 1, none, none⟩), (200, ⟨3, 0, none, none⟩)],
        some 100, 5, 1⟩ (some 200) =
      ⟨[(100, ⟨5, 1, none, none⟩)], none, 2, 1⟩ ∧
    (xfree ⟨[(100, ⟨5, 1, none, none⟩), (200, ⟨3, 0, none, none⟩)],
        some 100, 5, 1⟩ (some 200)).dbgHead ≠ some 100 ∧
    (xfree ⟨[(100, ⟨5, 1, none, none⟩), (200, ⟨3, 0, none, none⟩)],
        some 100, 5, 1⟩ (some 200)).debugBytesAlive ≠ 5 := by
  refine ⟨rfl, ?_, ?_⟩ <;> decide

/-- Claim C5 counterexample: `BasicAllocator.alloc` is the C library
`malloc` itself, so `allocate(0)` issues the underlying call, and since the
C standard allows `malloc(0)` to return a unique non-null pointer the
result need not be empty.  Here `malloc(0)` returns block 1. -/
theorem c5_counterexample_basic_alloc_zero :
    (basicAllocT (some 1) 0).1 = [SysCall.mallocCall 0 (some 1)] ∧
    (basicAllocT (some 1) 0).2 = some (some 1) ∧
    (basicAllocT (some 1) 0).2 ≠ some none := by
  refine ⟨rfl, rfl, ?_⟩
  decide

/-- Claim C5 (amended): for the SafeAllocator and the DebugAllocator,
`allocate(0)` yields an empty result without invoking the underlying
allocator and without touching the tracking state; the BasicAllocator
delegates even the size-0 call directly to `malloc`. -/
theorem c5_amended_alloc_zero :
    (∀ res, xallocT res 0 = ([], some none)) ∧
    (∀ (s : MemState) (a : Addr), debugAlloc s 0 a = (s, none)) :=
  ⟨fun _ => rfl, fun _ _ => rfl⟩

/-- Claim C6 counterexample: for the SafeAllocator, `resize(p, 0)` is not
`free(p)` followed by an empty result: `xrealloc` passes size 0 straight to
the C library `realloc` and dies on a null result, so when `realloc`
returns a block (here 7) the result is non-empty. -/
theorem c6_counterexample_safe_resize_zero :
    (xreallocT (some 7) (some 5) 0).1 =
      [SysCall.reallocCall (some 5) 0 (some 7)] ∧
    (xreallocT (some 7) (some 5) 0).2 = some (some 7) ∧
    (xreallocT (some 7) (some 5) 0).2 ≠ some none := by
  refine ⟨rfl, rfl, ?_⟩
  decide

/-- Claim C6 (amended): for the DebugTrackingStrategy, `resize(p, 0)` is
observationally identical to `free(p)` followed by returning empty; the
Basic and Safe strategies instead forward size 0 to the C library
`realloc`, whose result is implementation-defined (and fatal for
SafeAllocator when null). -/
theorem c6_amended_resize_zero_debug :
    ∀ (s : MemState) (a a2 : Addr),
      debugRealloc s (some a) 0 a2 = (debugFree s (some a), none) :=
  fun _ _ _ => rfl

/-- Claim C7 counterexample: for the SafeAllocator at size 0,
`resize(empty, 0)` is not `allocate(0)`: `xalloc 0` returns empty quietly
without calling `malloc`, while `xrealloc NULL 0` calls `realloc` and
returns its (non-empty, here block 7) result, or dies if it is null. -/
theorem c7_counterexample_safe_resize_empty_zero :
    (xallocT (some 7) 0).2 = some none ∧
    (xallocT (some 7) 0).1 = [] ∧
    (xreallocT (some 7) none 0).2 = some (some 7) ∧
    (xreallocT (some 7) none 0).1 ≠ [] ∧
    (xreallocT (some 7) none 0).2 ≠ (xallocT (some 7) 0).2 := by
  refine ⟨rfl, rfl, rfl, ?_, ?_⟩ <;> decide

/-- Claim C7 (amended): `resize(empty, n)` is observationally identical to
`allocate(n)` for the DebugTrackingStrategy (all `n`) and for the
BasicAllocator (all `n`, since `realloc(NULL, n)` behaves as `malloc(n)`),
and for the SafeAllocator whenever `n` is nonzero. -/
theorem c7_amended_resize_empty :
    (∀ (s : MemState) (sz : Nat) (a : Addr),
      debugRealloc s none sz a = debugAlloc s sz a) ∧
    (∀ (res : Option Addr) (sz : Nat),
      (basicReallocT res none sz).2 = (basicAllocT res sz).2) ∧
    (∀ (res : Option Addr) (sz : Nat), sz ≠ 0 →
      (xreallocT res none sz).2 = (xallocT res sz).2) := by
  refine ⟨fun _ _ _ => rfl, fun _ _ => rfl, ?_⟩
  intro res sz hsz
  simp only [xreallocT, xallocT, if_neg hsz]

/-- Claim C7 witness: the amended statement applied to the SafeAllocator
with size 7 and a successful underlying call. -/
theorem c7_amended_resize_empty_witness :
    (7 : Nat) ≠ 0 ∧ (xreallocT (some 3) none 7).2 = (xallocT (some 3) 7).2 :=
  ⟨by decide, c7_amended_resize_empty.2.2 (some 3) 7 (by decide)⟩


/-- Claim C2: after any valid sequence of debugAlloc / debugFree /
debugRealloc operations from the initial state, `debugBytesAlive` equals
the sum of the `size` fields of the records in the list headed by
`dbgHead` (the chain of `next` links starting at `dbgHead`). -/
theorem c2_liveBytes_eq_list_sum (ops : List Op)
    (hv : runValidB initialState ops = true) :
    ∃ addrs,
      chainB (run initialState ops).heap none (run initialState ops).dbgHead
        addrs = true ∧
      (run initialState ops).debugBytesAlive =
        sumSizes (run initialState ops).heap addrs := by
  obtain ⟨addrs, h1, _, _, _, h5⟩ := inv_run ops initialState inv_initialState hv
  exact ⟨addrs, h1, h5⟩

/-- Claim C2 witness: a concrete alloc / alloc / free / resize run. -/
theorem c2_liveBytes_eq_list_sum_witness :
    runValidB initialState
      [Op.alloc 10 100, Op.alloc 20 200, Op.free (some 100),
        Op.realloc (some 200) 5 200] = true ∧
    (∃ addrs,
      chainB (run initialState
          [Op.alloc 10 100, Op.alloc 20 200, Op.free (some 100),
            Op.realloc (some 200) 5 200]).heap none
        (run initialState
          [Op.alloc 10 100, Op.alloc 20 200, Op.free (some 100),
            Op.realloc (some 200) 5 200]).dbgHead addrs = true ∧
      (run initialState
          [Op.alloc 10 100, Op.alloc 20 200, Op.free (some 100),
            Op.realloc (some 200) 5 200]).debugBytesAlive =
        sumSizes (run initialState
          [Op.alloc 10 100, Op.alloc 20 200, Op.free (some 100),
            Op.realloc (some 200) 5 200]).heap addrs) :=
  ⟨by decide, c2_liveBytes_eq_list_sum _ (by decide)⟩

/-- Claim C3: after any valid sequence of DebugTrackingStrategy operations
from the initial state, the doubly-linked-list validity invariant holds:
the head record's `prev` is empty, and every tracked record's `next` and
`prev` neighbours, when present, point back at it — so each operation
preserves the invariant along every valid execution. -/
theorem c3_dll_valid (ops : List Op)
    (hv : runValidB initialState ops = true) :
    dllValidB (run initialState ops) = true :=
  dll_of_inv (run initialState ops) (inv_run ops initialState inv_initialState hv)

/-- Claim C3 witness: a concrete run including a relocating resize. -/
theorem c3_dll_valid_witness :
    runValidB initialState
      [Op.alloc 10 100, Op.alloc 20 200, Op.alloc 30 300,
        Op.realloc (some 200) 7 400, Op.free (some 300)] = true ∧
    dllValidB (run initialState
      [Op.alloc 10 100, Op.alloc 20 200, Op.alloc 30 300,
        Op.realloc (some 200) 7 400, Op.free (some 300)]) = true :=
  ⟨by decide, c3_dll_valid _ (by decide)⟩

/-- Claim C4: along any operation sequence the sequence numbers assigned by
successive successful `debugAlloc` calls (the runs of `debugAllocCount`
increments, each storing the new counter into the record) are pairwise
strictly increasing — hence unique and never reused, also across
interleaved frees — and `debugFree` never decrements `debugAllocCount`. -/
theorem c4_sequence_numbers :
    (∀ (s : MemState) (ops : List Op),
      (assignedSeqs s ops).Pairwise (· < ·)) ∧
    (∀ (s : MemState) (p : Option Addr),
      (debugFree s p).debugAllocCount = s.debugAllocCount) :=
  ⟨fun s ops => assignedSeqs_pairwise ops s, fun s p => debugFree_count s p⟩


/-- Claim C8 counterexample: at a state with one live record (sequence 1,
size 5) the code's leak line carries a trailing space after `bytes`
(format string `"Leak: allocation %zu leaked %zu bytes \\n"`), so the
report is not exactly the claimed three lines. -/
theorem c8_counterexample_trailing_space :
    debugReportLeaks ⟨[(100, ⟨5, 1, none, none⟩)], some 100, 5, 1⟩ =
      ["MEMORY LEAKS DETECTED:", "Leak: allocation 1 leaked 5 bytes ",
        "Total leaked: 5 bytes"] ∧
    debugReportLeaks ⟨[(100, ⟨5, 1, none, none⟩)], some 100, 5, 1⟩ ≠
      ["MEMORY LEAKS DETECTED:", "Leak: allocation 1 leaked 5 bytes",
        "Total leaked: 5 bytes"] := by
  refine ⟨rfl, ?_⟩
  decide

/-- Claim C8 (amended): in any invariant state the leak report is exactly:
the single line `No memory leaks detected.` when the list is empty, and
otherwise the header `MEMORY LEAKS DETECTED:`, one line
`Leak: allocation <sequenceNumber> leaked <size> bytes ` (with a trailing
space) per record in head-to-tail order, then the trailer
`Total leaked: <liveBytes> bytes`; the report reads and never mutates the
state. -/
theorem c8_report_amended (s : MemState) (addrs : List Addr)
    (hI : InvWith s addrs) :
    debugReportLeaks s =
      if addrs = [] then ["No memory leaks detected."]
      else "MEMORY LEAKS DETECTED:" ::
        (addrs.map (fun a =>
          match lookupH s.heap a with
          | none => ""
          | some r => leakLine r) ++
        ["Total leaked: " ++ toString s.debugBytesAlive ++ " bytes"]) := by
  obtain ⟨hchain, hnd, hknd, hsub, hbytes⟩ := hI
  cases addrs with
  | nil =>
    have hhd : s.dbgHead = none := (chainB_nil_iff s.heap none s.dbgHead).mp hchain
    rw [if_pos rfl]
    simp [debugReportLeaks, hhd]
  | cons b rest =>
    have hchain2 := hchain
    rw [chainB_cons_iff] at hchain2
    have hhd : s.dbgHead = some b := hchain2.1
    rw [if_neg (by simp : ¬ (b :: rest : List Addr) = [])]
    have hsubk : (b :: rest) ⊆ heapKeys s.heap := by
      intro x hx
      have := chainB_mem_isSome s.heap (b :: rest) none s.dbgHead hchain x hx
      exact mem_heapKeys_of_lookupH s.heap x ((lookupH s.heap x).get this)
        (Option.eq_some_of_isSome this)
    have hlen : (b :: rest).length ≤ s.heap.length := by
      have hsp := List.subperm_of_subset hnd hsubk
      have hle := hsp.length_le
      have hkeq : (heapKeys s.heap).length = s.heap.length :=
        List.length_map s.heap Prod.fst
      omega
    have hll := leakLines_chain s.heap (b :: rest) none s.dbgHead
      s.heap.length hchain hlen
    rw [hhd] at hll
    show (match s.dbgHead with
          | none => ["No memory leaks detected."]
          | some _ => "MEMORY LEAKS DETECTED:" ::
              (leakLines s.heap s.dbgHead s.heap.length ++
                ["Total leaked: " ++ toString s.debugBytesAlive ++ " bytes"])) = _
    rw [hhd]
    show "MEMORY LEAKS DETECTED:" ::
        (leakLines s.heap (some b) s.heap.length ++
          ["Total leaked: " ++ toString s.debugBytesAlive ++ " bytes"]) = _
    rw [hll]

/-- Claim C8 witness: the amended report shape at a one-record state. -/
theorem c8_report_amended_witness :
    InvWith ⟨[(100, ⟨5, 1, none, none⟩)], some 100, 5, 1⟩ [100] ∧
    debugReportLeaks ⟨[(100, ⟨5, 1, none, none⟩)], some 100, 5, 1⟩ =
      (if ([100] : List Addr) = [] then ["No memory leaks detected."]
       else "MEMORY LEAKS DETECTED:" ::
         (([100] : List Addr).map (fun a =>
            match lookupH (⟨[(100, ⟨5, 1, none, none⟩)], some 100, 5, 1⟩ :
                MemState).heap a with
            | none => ""
            | some r => leakLine r) ++
          ["Total leaked: " ++
            toString (⟨[(100, ⟨5, 1, none, none⟩)], some 100, 5, 1⟩ :
              MemState).debugBytesAlive ++ " bytes"])) :=
  ⟨by decide, c8_report_amended _ [100] (by decide)⟩

theorem debugFree_bytesAlive (s : MemState) (a : Addr) (r : DebugHeader)
    (hr : lookupH s.heap a = some r) :
    (debugFree s (some a)).debugBytesAlive = s.debugBytesAlive - r.size := by
  simp [debugFree, hr]

theorem debugAlloc_lookup_self (s : MemState) (sz : Nat) (a : Addr) (hsz : sz ≠ 0) :
    ∃ r, lookupH ((debugAlloc s sz a).1).heap a = some r ∧ r.size = sz := by
  cases s with
  | mk heap hd bytes cnt =>
    have heq : ((debugAlloc ⟨heap, hd, bytes, cnt⟩ sz a).1).heap =
        updOpt ((a, ⟨sz, cnt + 1, hd, none⟩) :: heap) hd
          (fun x => { x with prev := some a }) := by
      simp [debugAlloc, hsz]
    rw [heq]
    by_cases hhd : hd = some a
    · rw [lookupH_updOpt, if_pos hhd]
      refine ⟨⟨sz, cnt + 1, hd, some a⟩, ?_, rfl⟩
      rw [show lookupH ((a, (⟨sz, cnt + 1, hd, none⟩ : DebugHeader)) :: heap) a =
          some ⟨sz, cnt + 1, hd, none⟩ from by simp [lookupH]]
      rfl
    · rw [lookupH_updOpt, if_neg hhd]
      exact ⟨⟨sz, cnt + 1, hd, none⟩, by simp [lookupH], rfl⟩

theorem debugAlloc_bytesAlive (s : MemState) (sz : Nat) (a : Addr) (hsz : sz ≠ 0) :
    ((debugAlloc s sz a).1).debugBytesAlive = s.debugBytesAlive + sz := by
  simp [debugAlloc, hsz]

theorem debugAlloc_ret (s : MemState) (sz : Nat) (a : Addr) (hsz : sz ≠ 0) :
    (debugAlloc s sz a).2 = some a := by
  simp [debugAlloc, hsz]

/-- Claim C9: duplicating a (non-null) character sequence through the
DebugAllocator and then freeing the returned buffer through the same
strategy restores `debugBytesAlive` to its prior value, from any starting
state (the fresh block returned by the underlying allocator being `a`). -/
theorem c9_strdup_roundtrip (s : MemState) (cs : List Char) (a : Addr)
    (hfresh : lookupH s.heap a = none) :
    (debugFree (xstrdupDebug s (some cs) a).1
      (xstrdupDebug s (some cs) a).2).debugBytesAlive = s.debugBytesAlive := by
  have hsz : cs.length + 1 ≠ 0 := Nat.succ_ne_zero _
  show (debugFree (debugAlloc s (cs.length + 1) a).1
      (debugAlloc s (cs.length + 1) a).2).debugBytesAlive = s.debugBytesAlive
  rw [debugAlloc_ret s (cs.length + 1) a hsz]
  obtain ⟨r, hr, hrsz⟩ := debugAlloc_lookup_self s (cs.length + 1) a hsz
  rw [debugFree_bytesAlive _ a r hr, hrsz,
    debugAlloc_bytesAlive s (cs.length + 1) a hsz]
  omega

/-- Claim C9 witness: duplicating "xy" from the initial state. -/
theorem c9_strdup_roundtrip_witness :
    lookupH initialState.heap 100 = none ∧
    (debugFree (xstrdupDebug initialState (some ['x', 'y']) 100).1
      (xstrdupDebug initialState (some ['x', 'y']) 100).2).debugBytesAlive =
      initialState.debugBytesAlive :=
  ⟨rfl, c9_strdup_roundtrip initialState ['x', 'y'] 100 rfl⟩

/-- Claim C10: resizing a live pointer to a nonzero size leaves
`debugAllocCount` unchanged and the surviving record keeps the
`allocNumber` assigned at creation, as well as its own `next` and `prev`
links; only its size (and possibly its address) change. -/
theorem c10_realloc_keeps_identity (s : MemState) (a a2 : Addr) (sz : Nat)
    (r : DebugHeader) (hI : Inv s) (hr : lookupH s.heap a = some r)
    (hsz : sz ≠ 0) (ha2 : a2 = a ∨ lookupH s.heap a2 = none) :
    ((debugRealloc s (some a) sz a2).1).debugAllocCount = s.debugAllocCount ∧
    (debugRealloc s (some a) sz a2).2 = some a2 ∧
    (∃ r', lookupH ((debugRealloc s (some a) sz a2).1).heap a2 = some r' ∧
      r'.allocNumber = r.allocNumber ∧ r'.size = sz ∧
      r'.next = r.next ∧ r'.prev = r.prev) := by
  rcases ha2 with heqa | hfresh
  · subst heqa
    refine ⟨?_, ?_, ⟨{ r with size := sz }, ?_, rfl, rfl, rfl, rfl⟩⟩
    · simp [debugRealloc, hsz, hr]
    · simp [debugRealloc, hsz, hr]
    · have hh : ((debugRealloc s (some a2) sz a2).1).heap =
          updateH s.heap a2 (fun x => { x with size := sz }) := by
        simp [debugRealloc, hsz, hr]
      rw [hh, lookupH_updateH, if_pos rfl, hr]
      rfl
  · have hne : ¬ a2 = a := by
      intro hh
      rw [hh, hr] at hfresh
      exact Option.noConfusion hfresh
    obtain ⟨addrs, hIw⟩ := hI
    obtain ⟨hchain, hnd, hknd, hsub, hbytes⟩ := hIw
    have ha : a ∈ addrs := hsub a (mem_heapKeys_of_lookupH _ _ _ hr)
    obtain ⟨l1, l2, hsplit⟩ := List.append_of_mem ha
    subst hsplit
    obtain ⟨pv1, cur1, hseg, hch2⟩ :=
      chainB_split s.heap (a :: l2) l1 none s.dbgHead hchain
    rw [chainB_cons_iff] at hch2
    obtain ⟨hcur1, r', hl', hp', hch3⟩ := hch2
    rw [hr] at hl'
    injection hl' with he
    subst he
    have hmemkeys : ∀ x ∈ l1 ++ a :: l2, x ∈ heapKeys s.heap := by
      intro x hx
      have := chainB_mem_isSome s.heap (l1 ++ a :: l2) none s.dbgHead hchain x hx
      exact mem_heapKeys_of_lookupH s.heap x ((lookupH s.heap x).get this)
        (Option.eq_some_of_isSome this)
    have ha2k : a2 ∉ heapKeys s.heap := (lookupH_eq_none_iff s.heap a2).mp hfresh
    have hnn : ¬ r.next = some a2 := by
      intro hc
      have hmem : a2 ∈ l2 := chainB_head_mem s.heap (some a) a2 l2 (hc ▸ hch3)
      exact ha2k (hmemkeys a2
        (List.mem_append.mpr (Or.inr (List.mem_cons_of_mem a hmem))))
    have hnp : ¬ r.prev = some a2 := by
      intro hc
      by_cases hl1 : l1 = []
      · subst hl1
        obtain ⟨hpv, _⟩ := (segB_nil_iff s.heap none s.dbgHead pv1 cur1).mp hseg
        rw [hp', ← hpv] at hc
        exact Option.noConfusion hc
      · obtain ⟨z, hz, hpv1⟩ :=
          segB_exit_mem s.heap l1 none s.dbgHead pv1 cur1 hseg hl1
        rw [hp', hpv1] at hc
        injection hc with hza
        exact ha2k (hmemkeys a2 (List.mem_append.mpr (Or.inl (hza ▸ hz))))
    have hh : ((debugRealloc s (some a) sz a2).1).heap =
        updateH (updOpt (updOpt ((a2, r) :: eraseH s.heap a)
            r.prev (fun x => { x with next := some a2 }))
            r.next (fun x => { x with prev := some a2 }))
          a2 (fun x => { x with size := sz }) := by
      simp [debugRealloc, hsz, hr, hne]
    have hcnt : ((debugRealloc s (some a) sz a2).1).debugAllocCount =
        s.debugAllocCount := by
      simp [debugRealloc, hsz, hr, hne]
    have hret : (debugRealloc s (some a) sz a2).2 = some a2 := by
      simp [debugRealloc, hsz, hr, hne]
    refine ⟨hcnt, hret, ⟨{ r with size := sz }, ?_, rfl, rfl, rfl, rfl⟩⟩
    rw [hh, lookupH_updateH, if_pos rfl, lookupH_updOpt, if_neg hnn,
      lookupH_updOpt, if_neg hnp]
    rw [show lookupH ((a2, r) :: eraseH s.heap a) a2 = some r from by
      simp [lookupH]]
    rfl

/-- Claim C10 witness: a relocating resize of a one-record state. -/
theorem c10_realloc_keeps_identity_witness :
    Inv (⟨[(100, ⟨10, 1, none, none⟩)], some 100, 10, 1⟩ : MemState) ∧
    lookupH (⟨[(100, ⟨10, 1, none, none⟩)], some 100, 10, 1⟩ :
        MemState).heap 100 = some ⟨10, 1, none, none⟩ ∧
    (4 : Nat) ≠ 0 ∧
    (((debugRealloc ⟨[(100, ⟨10, 1, none, none⟩)], some 100, 10, 1⟩
          (some 100) 4 200).1).debugAllocCount =
        (⟨[(100, ⟨10, 1, none, none⟩)], some 100, 10, 1⟩ :
          MemState).debugAllocCount ∧
      (debugRealloc ⟨[(100, ⟨10, 1, none, none⟩)], some 100, 10, 1⟩
          (some 100) 4 200).2 = some 200 ∧
      (∃ r', lookupH ((debugRealloc
            ⟨[(100, ⟨10, 1, none, none⟩)], some 100, 10, 1⟩
            (some 100) 4 200).1).heap 200 = some r' ∧
        r'.allocNumber = (⟨10, 1, none, none⟩ : DebugHeader).allocNumber ∧
        r'.size = 4 ∧
        r'.next = (⟨10, 1, none, none⟩ : DebugHeader).next ∧
        r'.prev = (⟨10, 1, none, none⟩ : DebugHeader).prev)) :=
  ⟨⟨[100], by decide⟩, rfl, by decide,
    c10_realloc_keeps_identity _ 100 200 4 ⟨10, 1, none, none⟩
      ⟨[100], by decide⟩ rfl (by decide) (Or.inr rfl)⟩


end Xalloc
